import Mathlib

/-!
Verification of the SafePath Shield planning engine.  The definitions in
this file are a shallow embedding of `src/engine.py` (building graph,
hazard-aware BFS safe-path search, door-state derivation) and of the grid
A* of `src/map_builder.py`; the theorems at the end settle the frozen
claims about that code.
-/

namespace SafePath

/-- A node record of the building definition, `{"id": ..., "type": ...}`.
`ntype` is `none` when the record has no `"type"` key (Python `n.get("type")`). -/
structure NodeRec where
  id : String
  ntype : Option String
deriving DecidableEq, Repr

/-- An edge record, `{"from": ..., "to": ..., "weight"?: ..., "door_id"?: ...}`.
Absent optional keys are `none`. -/
structure Edge where
  src : String
  dst : String
  weight : Option Nat := none
  doorId : Option String := none
deriving DecidableEq, Repr

/-- One traversed step `(from, to, edge)` as stored in BFS paths. -/
abbrev Step := String × String × Edge

/-- The building map as loaded by `BuildingMap.__init__`: a node list and an
edge list (the derived indexes are functions below). -/
structure BuildingMap where
  nodes : List NodeRec
  edges : List Edge
deriving DecidableEq, Repr

/-- Exit ids: `[n["id"] for n in data["nodes"] if n.get("type") == "exit"]`. -/
def BuildingMap.exits (m : BuildingMap) : List String :=
  (m.nodes.filter fun n => n.ntype == some "exit").map NodeRec.id

/-- Room ids: `[n["id"] for n in data["nodes"] if n.get("type") == "room"]`. -/
def BuildingMap.rooms (m : BuildingMap) : List String :=
  (m.nodes.filter fun n => n.ntype == some "room").map NodeRec.id

/-- Value of the adjacency list of `n` as built in `BuildingMap.__init__`:
each edge contributes `(b, w, e)` to `adj[a]` and `(a, w, e)` to `adj[b]`
in edge-declaration order, with `w = e.get("weight", 1)`. -/
def adjOf (edges : List Edge) (n : String) : List (String × Nat × Edge) :=
  edges.flatMap fun e =>
    (if e.src = n then [(e.dst, e.weight.getD 1, e)] else []) ++
    (if e.dst = n then [(e.src, e.weight.getD 1, e)] else [])

/-- Well-formed building definition: node ids are unique, as the spec's data
model requires ("id (unique string)"). -/
def BuildingMap.Wf (m : BuildingMap) : Prop :=
  (m.nodes.map NodeRec.id).Nodup

instance (m : BuildingMap) : Decidable m.Wf := by
  unfold BuildingMap.Wf
  infer_instance

/-- The BFS locked-door test `if door_id and door_id in self.locked_doors`:
a falsy (absent or empty) door id is never treated as locked. -/
def lockedSkip (locked : Finset String) (e : Edge) : Bool :=
  match e.doorId with
  | some d => decide (d ≠ "") && decide (d ∈ locked)
  | none => false

/-- The neighbor loop of `bfs_to_exit` for one dequeued `(node, path)` pair:
skip already-visited, hazardous, or locked-door neighbors; otherwise mark the
neighbor visited and enqueue the extended path at the right end of the queue. -/
def bfsExpand (haz locked : Finset String) (node : String) (path : List Step) :
    List (String × Nat × Edge) → List (String × List Step) → List String →
    List (String × List Step) × List String
  | [], q, vis => (q, vis)
  | (nei, _, e) :: rest, q, vis =>
    if nei ∈ vis then bfsExpand haz locked node path rest q vis
    else if nei ∈ haz then bfsExpand haz locked node path rest q vis
    else if lockedSkip locked e then bfsExpand haz locked node path rest q vis
    else bfsExpand haz locked node path rest
      (q ++ [(nei, path ++ [(node, nei, e)])]) (vis ++ [nei])

/-- The main BFS loop of `bfs_to_exit`, with explicit fuel.  The Python loop
always terminates; `bfsFuel` below is proved sufficient, so the fuel never
runs out on the states reachable from `bfs_to_exit`. -/
def bfsAux (m : BuildingMap) (haz locked : Finset String) :
    Nat → List (String × List Step) → List String → Option (List Step)
  | 0, _, _ => none
  | _ + 1, [], _ => none
  | fuel + 1, (node, path) :: qt, vis =>
    if node ∈ m.exits then some path
    else
      let st := bfsExpand haz locked node path (adjOf m.edges node) qt vis
      bfsAux m haz locked fuel st.1 st.2

/-- Fuel bound for the BFS loop: the visited set can hold at most
`1 + 2 * |edges|` distinct ids, and each iteration strictly decreases
`|queue| + 2 * (bound - |visited|)`. -/
def bfsFuel (m : BuildingMap) : Nat := 4 * m.edges.length + 2

/-- `SafePathEngine.bfs_to_exit`: hazardous starts fail immediately;
otherwise run the BFS loop from queue `[(start, [])]`, visited `{start}`. -/
def bfs_to_exit (m : BuildingMap) (haz locked : Finset String) (start : String) :
    Option (List Step) :=
  if start ∈ haz then none
  else bfsAux m haz locked (bfsFuel m) [(start, [])] [start]

/-- Python truthiness of an optional door id: `None` and `""` are falsy. -/
def truthyDoor : Option String → Option String
  | some d => if d = "" then none else some d
  | none => none

/-- Door ids along a path, in order, skipping falsy ids:
`[e.get("door_id") for e in used_edges if e.get("door_id")]`. -/
def pathDoorIds (p : List Step) : List String :=
  p.filterMap fun s => truthyDoor s.2.2.doorId

/-- A per-room plan: `{"mode": "LOCKDOWN"}` or
`{"mode": "EVAC", "exit": ..., "path_edges": [...]}`. -/
inductive RoomPlan where
  | lockdown : RoomPlan
  | evac (exitNode : String) (pathEdges : List String) : RoomPlan
deriving DecidableEq, Repr

/-- The per-room branch of `compute_plan`.  When BFS returns the empty path
(possible only when the start node is itself exit-tagged) Python would fail
on `path[-1]`; that case is unreachable for well-formed maps and rooms, and
the placeholder exit value `""` is never produced there. -/
def roomPlanOf (m : BuildingMap) (haz locked : Finset String) (r : String) : RoomPlan :=
  match bfs_to_exit m haz locked r with
  | none => .lockdown
  | some path =>
    let exitNode := match path.getLast? with
      | some s => s.2.1
      | none => ""
    .evac exitNode (pathDoorIds path)

/-- The `used_by_any` accumulation: door ids appearing in the path of some
EVAC room (only membership in this set is ever consulted). -/
def usedByAny (m : BuildingMap) (haz locked : Finset String) : List String :=
  m.rooms.flatMap fun r =>
    match bfs_to_exit m haz locked r with
    | none => []
    | some path => pathDoorIds path

/-- Door states: `"UNLOCK"`, `"LOCK_IDLE"`, `"LOCK_BLOCK_THREAT"`. -/
inductive DoorSt where
  | unlock : DoorSt
  | lockIdle : DoorSt
  | threat : DoorSt
deriving DecidableEq, Repr

/-- Python dict assignment on an association list: update in place if the key
is present, append at the end otherwise. -/
def setAssoc (l : List (String × DoorSt)) (k : String) (v : DoorSt) :
    List (String × DoorSt) :=
  if l.any fun p => p.1 == k then
    l.map fun p => if p.1 = k then (k, v) else p
  else l ++ [(k, v)]

/-- Read of `doors_state[d]` with the `defaultdict(lambda: "UNLOCK")` default. -/
def lookupDoor (l : List (String × DoorSt)) (k : String) : DoorSt :=
  (l.lookup k).getD .unlock

/-- One iteration of the door-state loop of `compute_plan` over an edge:
hazardous endpoint wins this iteration, then used-by-any, then idle-lock
(the idle branch leaves an already-threat-locked door alone). -/
def doorStep (haz : Finset String) (used : List String)
    (ds : List (String × DoorSt)) (e : Edge) : List (String × DoorSt) :=
  match truthyDoor e.doorId with
  | none => ds
  | some d =>
    if e.src ∈ haz ∨ e.dst ∈ haz then setAssoc ds d .threat
    else if d ∈ used then setAssoc ds d .unlock
    else if lookupDoor ds d = .threat then ds
    else setAssoc ds d .lockIdle

/-- The door-state loop of `compute_plan`, sequentially over `self.b.edges`. -/
def doorsOf (m : BuildingMap) (haz locked : Finset String) : List (String × DoorSt) :=
  m.edges.foldl (doorStep haz (usedByAny m haz locked)) []

/-- The result of `compute_plan`: the room-plan map and the door-state map,
both in Python dict insertion order. -/
structure Plan where
  rooms : List (String × RoomPlan)
  doors : List (String × DoorSt)
deriving DecidableEq, Repr

/-- `SafePathEngine.compute_plan`. -/
def compute_plan (m : BuildingMap) (haz locked : Finset String) : Plan where
  rooms := m.rooms.map fun r => (r, roomPlanOf m haz locked r)
  doors := doorsOf m haz locked

/-- `SafePathEngine.set_hazards`: `self.hazards = set(hazard_nodes or [])`. -/
def set_hazards (hazardNodes : Option (List String)) : Finset String :=
  (hazardNodes.getD []).toFinset

/-- Spec predicate: a single admissible step `(a, b, e)` — `e` is a declared
edge joining `a` and `b` (in either declared direction), `b` is not
hazardous, and the edge's door (if any) is not force-locked. -/
def ValidStep (m : BuildingMap) (haz locked : Finset String) (s : Step) : Prop :=
  s.2.2 ∈ m.edges ∧
    ((s.2.2.src = s.1 ∧ s.2.2.dst = s.2.1) ∨ (s.2.2.src = s.2.1 ∧ s.2.2.dst = s.1)) ∧
    s.2.1 ∉ haz ∧ lockedSkip locked s.2.2 = false

/-- Spec predicate: a chained safe walk from `a` to `b` through steps `p`. -/
def Walk (m : BuildingMap) (haz locked : Finset String) :
    String → List Step → String → Prop
  | a, [], b => a = b
  | a, s :: p, b => s.1 = a ∧ ValidStep m haz locked s ∧ Walk m haz locked s.2.1 p b

/-- Spec predicate, from the spec's words: a hazard-respecting path from
`start` to some exit node — `start` itself is non-hazardous, every traversed
node is non-hazardous, and no traversed edge carries a locked door id. -/
def ExitWalk (m : BuildingMap) (haz locked : Finset String) (start : String)
    (p : List Step) : Prop :=
  start ∉ haz ∧ ∃ t, Walk m haz locked start p t ∧ t ∈ m.exits

/-- The destination nodes of the steps of a path. -/
def tos (p : List Step) : List String :=
  p.map fun s => s.2.1

/-- Node number `i` of the walk `p` started at `start` (`start` itself for
`i = 0`, the destination of step `i` afterwards). -/
def wnode (start : String) (p : List Step) (i : Nat) : String :=
  (start :: tos p).getD i ""

/-- All edge endpoints, in declaration order: every id the BFS can ever
visit other than the start node occurs in this list. -/
def endpointsOf (edges : List Edge) : List String :=
  edges.flatMap fun e => [e.src, e.dst]

/-- Termination measure of the BFS loop: every iteration strictly decreases
the queue length plus twice the remaining visiting capacity. -/
def bfsPhi (edges : List Edge) (q : List (String × List Step)) (vis : List String) : Nat :=
  q.length + 2 * (2 * edges.length + 1 - vis.length)

/-- Frontier-crossing invariant of the BFS loop, relative to one fixed
competitor walk `p` from `start`: some entry of the queue sits on the walk at
an index at least its own path length, and no later walk node has been
visited yet. -/
def Crossing (start : String) (p : List Step)
    (q : List (String × List Step)) (vis : List String) : Prop :=
  ∃ i ≤ p.length,
    (∃ en ∈ q, en.1 = wnode start p i ∧ en.2.length ≤ i) ∧
    ∀ j, i < j → j ≤ p.length → wnode start p j ∉ vis

/-- State invariant of the BFS loop relative to `start`: the visited list is
duplicate-free and spans only reachable ids, every queue entry carries a safe
walk from `start` to its node with duplicate-free visited destinations, and
queue entries form at most two consecutive length levels. -/
structure BfsInv (m : BuildingMap) (haz locked : Finset String) (start : String)
    (q : List (String × List Step)) (vis : List String) : Prop where
  start_vis : start ∈ vis
  vis_nodup : vis.Nodup
  vis_dom : ∀ v ∈ vis, v = start ∨ v ∈ endpointsOf m.edges
  entries : ∀ en ∈ q, Walk m haz locked start en.2 en.1 ∧ (tos en.2).Nodup ∧
    (∀ t ∈ tos en.2, t ∈ vis) ∧ en.1 ∈ vis ∧ (en.2 = [] → en.1 = start)
  split : ∃ L qa qb, q = qa ++ qb ∧ (∀ en ∈ qa, en.2.length = L) ∧
    (∀ en ∈ qb, en.2.length = L + 1)

/-!  Mutable-state view of the engine, faithful to the Python objects: the
adjacency mapping is a `defaultdict(list)`, so reading `self.b.adj[node]`
for a node with no stored entry inserts an empty list for it. -/

/-- The `defaultdict(list)` adjacency object: an association list in
key-insertion order. -/
abbrev AdjMap := List (String × List (String × Nat × Edge))

/-- `defaultdict.__getitem__`: return the stored list, or insert (and
return) an empty list for a missing key, mutating the mapping. -/
def adjGet (am : AdjMap) (k : String) : List (String × Nat × Edge) × AdjMap :=
  match am.lookup k with
  | some v => (v, am)
  | none => ([], am ++ [(k, [])])

/-- `self.adj[a].append(entry)` during construction: append to the stored
list, creating the key at the end of the dict on first touch. -/
def adjPush (am : AdjMap) (k : String) (v : String × Nat × Edge) : AdjMap :=
  if am.any fun p => p.1 == k then
    am.map fun p => if p.1 = k then (p.1, p.2 ++ [v]) else p
  else am ++ [(k, [v])]

/-- The adjacency dict as built by the `BuildingMap.__init__` edge loop. -/
def adjInit (edges : List Edge) : AdjMap :=
  edges.foldl
    (fun am e =>
      adjPush (adjPush am e.src (e.dst, e.weight.getD 1, e))
        e.dst (e.src, e.weight.getD 1, e))
    []

/-- The full mutable engine state: the building object's fields (with its
mutable adjacency dict) plus the planner's hazard and locked-door sets. -/
structure EngineS where
  nodes : List NodeRec
  edges : List Edge
  adj : AdjMap
  exits : List String
  rooms : List String
  hazards : Finset String
  lockedDoors : Finset String
deriving DecidableEq

/-- `SafePathEngine(BuildingMap(path))`: the freshly constructed state. -/
def EngineS.init (m : BuildingMap) : EngineS where
  nodes := m.nodes
  edges := m.edges
  adj := adjInit m.edges
  exits := m.exits
  rooms := m.rooms
  hazards := ∅
  lockedDoors := ∅

/-- `set_hazards` on the engine state: replaces the hazard set wholesale. -/
def EngineS.setHazards (st : EngineS) (l : Option (List String)) : EngineS :=
  { st with hazards := set_hazards l }

/-- The BFS loop, threading the mutable adjacency dict through the
`self.b.adj[node]` reads. -/
def bfsAuxS (st : EngineS) :
    Nat → List (String × List Step) → List String → AdjMap →
    Option (List Step) × AdjMap
  | 0, _, _, am => (none, am)
  | _ + 1, [], _, am => (none, am)
  | fuel + 1, (node, path) :: qt, vis, am =>
    if node ∈ st.exits then (some path, am)
    else
      let pr := adjGet am node
      let ex := bfsExpand st.hazards st.lockedDoors node path pr.1 qt vis
      bfsAuxS st fuel ex.1 ex.2 pr.2

/-- `bfs_to_exit` over a given adjacency dict state. -/
def bfsToExitS (st : EngineS) (am : AdjMap) (start : String) :
    Option (List Step) × AdjMap :=
  if start ∈ st.hazards then (none, am)
  else bfsAuxS st (4 * st.edges.length + 2) [(start, [])] [start] am

/-- The method `bfs_to_exit` as a state transformer on the engine. -/
def bfsS (st : EngineS) (start : String) : Option (List Step) × EngineS :=
  let pr := bfsToExitS st st.adj start
  (pr.1, { st with adj := pr.2 })

/-- The room loop of `compute_plan` on the engine state: per-room plans, the
accumulated used-by-any door ids, and the threaded adjacency dict. -/
def roomsLoopS (st : EngineS) :
    List String → AdjMap → List (String × RoomPlan) × List String × AdjMap
  | [], am => ([], [], am)
  | r :: rs, am =>
    let pr := bfsToExitS st am r
    let plan : RoomPlan :=
      match pr.1 with
      | none => .lockdown
      | some path =>
        let exitNode := match path.getLast? with
          | some s => s.2.1
          | none => ""
        .evac exitNode (pathDoorIds path)
    let ds : List String :=
      match pr.1 with
      | none => []
      | some path => pathDoorIds path
    let rest := roomsLoopS st rs pr.2
    ((r, plan) :: rest.1, ds ++ rest.2.1, rest.2.2)

/-- The method `compute_plan` as a state transformer on the engine. -/
def computePlanS (st : EngineS) : Plan × EngineS :=
  let rl := roomsLoopS st st.rooms st.adj
  (⟨rl.1, st.edges.foldl (doorStep st.hazards rl.2.1) []⟩,
    { st with adj := rl.2.2 })

/-- An adjacency dict extends another when it only gained fresh empty
entries at the end — the sole effect a `defaultdict` read can have. -/
def AdjExtend (old new : AdjMap) : Prop :=
  ∃ pad, new = old ++ pad ∧ ∀ pr ∈ pad, pr.2 = []

/-!  Grid A* of `src/map_builder.py`.  The heuristic is an abstract
parameter `h` (the source uses the float `math.hypot` Euclidean distance,
which at building scales is a nonnegative admissible heuristic vanishing at
the goal — exactly the hypotheses used below), and the pop of the open heap
is an abstract selection `sel` required only to return an entry of minimal
priority, covering every tie-breaking policy including the heapq tuple
order of the source. -/

/-- A grid cell `(y, x)` in integer coordinates. -/
abbrev Cell := Int × Int

/-- The binary occupancy grid: `H, W = obstacle_grid.shape`, and
`blocked y x` is the test `obstacle_grid[y, x] == 1`. -/
structure Grid where
  H : Nat
  W : Nat
  blocked : Int → Int → Bool

/-- The bounds test of the neighbor loop. -/
def Grid.inBounds (g : Grid) (c : Cell) : Prop :=
  0 ≤ c.1 ∧ c.1 < (g.H : Int) ∧ 0 ≤ c.2 ∧ c.2 < (g.W : Int)

instance (g : Grid) (c : Cell) : Decidable (g.inBounds c) :=
  inferInstanceAs (Decidable
    (0 ≤ c.1 ∧ c.1 < (g.H : Int) ∧ 0 ≤ c.2 ∧ c.2 < (g.W : Int)))

/-- A traversable cell: inside the grid and not an obstacle. -/
def FreeCell (g : Grid) (c : Cell) : Prop :=
  g.inBounds c ∧ g.blocked c.1 c.2 = false

instance (g : Grid) (c : Cell) : Decidable (FreeCell g c) :=
  inferInstanceAs (Decidable (g.inBounds c ∧ g.blocked c.1 c.2 = false))

/-- The neighbor offsets `[(1, 0), (-1, 0), (0, 1), (0, -1)]`. -/
def moves : List Cell := [(1, 0), (-1, 0), (0, 1), (0, -1)]

/-- One 4-connected unit move. -/
def Step4 (a b : Cell) : Prop :=
  ∃ d ∈ moves, b = (a.1 + d.1, a.2 + d.2)

instance (a b : Cell) : Decidable (Step4 a b) :=
  inferInstanceAs (Decidable (∃ d ∈ moves, b = (a.1 + d.1, a.2 + d.2)))

/-- Spec predicate (from the claim's words): a path from `start` to `goal`
through free cells by 4-connected moves, as the ordered list of its cells. -/
def GridPath (g : Grid) (start goal : Cell) (p : List Cell) : Prop :=
  p.head? = some start ∧ p.getLast? = some goal ∧
    List.Chain' Step4 p ∧ ∀ c ∈ p, FreeCell g c

/-- Executable check for the 4-connected chain condition. -/
def chain4B : List Cell → Bool
  | [] => true
  | [_] => true
  | a :: b :: l => decide (Step4 a b) && chain4B (b :: l)

instance (g : Grid) (start goal : Cell) (p : List Cell) :
    Decidable (GridPath g start goal p) :=
  decidable_of_iff
    (p.head? = some start ∧ p.getLast? = some goal ∧
      chain4B p = true ∧ ∀ c ∈ p, FreeCell g c)
    (by
      have hch : ∀ l : List Cell, chain4B l = true ↔ List.Chain' Step4 l := by
        intro l
        induction l with
        | nil => simp [chain4B]
        | cons a l ih =>
          cases l with
          | nil => simp [chain4B]
          | cons b l₂ =>
            rw [chain4B, List.chain'_cons, Bool.and_eq_true, decide_eq_true_eq]
            exact and_congr_right fun _ => ih
      rw [GridPath, hch p])

/-- Python dict assignment on an association list with arbitrary keys. -/
def updAssoc {κ α : Type} [DecidableEq κ] (l : List (κ × α)) (k : κ) (v : α) :
    List (κ × α) :=
  if l.any fun p => p.1 == k then
    l.map fun p => if p.1 = k then (k, v) else p
  else l ++ [(k, v)]

/-- The A* search state: the open heap (a multiset of `(f, cell)` entries),
the `gscore` dict, and the `came_from` dict. -/
structure AState where
  heap : List (ℚ × Cell)
  gsc : List (Cell × Nat)
  cameFrom : List (Cell × Cell)
deriving DecidableEq

/-- One neighbor relaxation of the A* loop body: bounds test, obstacle test,
and the `tentative < gscore.get(n, inf)` improvement test, which records the
predecessor, writes the new gscore, and pushes `(tentative + h(n), n)`. -/
def relax (g : Grid) (h : Cell → ℚ) (current : Cell) (st : AState) (d : Cell) :
    AState :=
  let n : Cell := (current.1 + d.1, current.2 + d.2)
  if g.inBounds n then
    if g.blocked n.1 n.2 then st
    else
      let tentative := (st.gsc.lookup current).getD 0 + 1
      let improves : Bool :=
        match st.gsc.lookup n with
        | none => true
        | some v => decide (tentative < v)
      if improves then
        { heap := st.heap ++ [((tentative : ℚ) + h n, n)],
          gsc := updAssoc st.gsc n tentative,
          cameFrom := updAssoc st.cameFrom n current }
      else st
  else st

/-- Path reconstruction by following `came_from` links from `c`, returned in
start-to-goal order (Python builds the reversed list and reverses it). -/
def reconstruct (cf : List (Cell × Cell)) : Nat → Cell → List Cell
  | 0, c => [c]
  | fuel + 1, c =>
    match cf.lookup c with
    | none => [c]
    | some p => reconstruct cf fuel p ++ [c]

/-- The main A* loop, parameterized by the heap-pop selection `sel` and with
explicit fuel (`astarFuel` below is proved sufficient). -/
def astarLoop (g : Grid) (goal : Cell) (h : Cell → ℚ)
    (sel : List (ℚ × Cell) → (ℚ × Cell) × List (ℚ × Cell)) :
    Nat → AState → List Cell
  | 0, _ => []
  | fuel + 1, st =>
    match st.heap with
    | [] => []
    | _ :: _ =>
      let pr := sel st.heap
      let current := pr.1.2
      if current = goal then reconstruct st.cameFrom st.gsc.length current
      else
        astarLoop g goal h sel fuel
          (moves.foldl (relax g h current)
            { heap := pr.2, gsc := st.gsc, cameFrom := st.cameFrom })

/-- Fuel bound for the A* loop (each iteration strictly decreases
`heap length + 2 * potential`, which starts below this). -/
def astarFuel (g : Grid) : Nat := 2 * (g.H * g.W) * (g.H * g.W) + 2

/-- The `astar(start, goal, obstacle_grid)` function: empty heap (or an
unreachable goal) yields `[]`. -/
def astar (g : Grid) (start goal : Cell) (h : Cell → ℚ)
    (sel : List (ℚ × Cell) → (ℚ × Cell) × List (ℚ × Cell)) : List Cell :=
  astarLoop g goal h sel (astarFuel g)
    { heap := [(0, start)], gsc := [(start, 0)], cameFrom := [] }

/-- Specification of a heap pop: on a nonempty list it returns an entry of
the list of minimal priority, and the rest of the multiset. -/
def SelSpec (sel : List (ℚ × Cell) → (ℚ × Cell) × List (ℚ × Cell)) : Prop :=
  ∀ l, l ≠ [] →
    (sel l).1 ∈ l ∧ l.Perm ((sel l).1 :: (sel l).2) ∧
    ∀ en ∈ l, (sel l).1.1 ≤ en.1

/-- Total order on heap entries mirroring Python tuple comparison
`(f, (y, x))`, used by the concrete pop below. -/
def entLeB (a b : ℚ × Cell) : Bool :=
  decide (a.1 < b.1) ||
    (decide (a.1 = b.1) &&
      (decide (a.2.1 < b.2.1) ||
        (decide (a.2.1 = b.2.1) && decide (a.2.2 ≤ b.2.2))))

/-- A concrete minimal-entry pop (the lexicographically least entry, as
`heapq` pops for tuple entries), used to instantiate `sel`. -/
def popMin : List (ℚ × Cell) → (ℚ × Cell) × List (ℚ × Cell)
  | [] => ((0, (0, 0)), [])
  | en :: rest =>
    match rest with
    | [] => (en, [])
    | _ :: _ =>
      let pr := popMin rest
      if entLeB en pr.1 then (en, rest) else (pr.1, en :: pr.2)

/-- Cell number `i` of a grid path. -/
def wcell (p : List Cell) (i : Nat) : Cell :=
  p.getD i (0, 0)

/-- The grid cells as a finite set. -/
def gridCells (g : Grid) : Finset Cell :=
  (Finset.range g.H ×ˢ Finset.range g.W).image fun pr => ((pr.1 : Int), (pr.2 : Int))

/-- Potential of a cell for the termination measure: its gscore if set,
else the cell count. -/
def potOf (g : Grid) (gsc : List (Cell × Nat)) (c : Cell) : Nat :=
  match gsc.lookup c with
  | some v => v
  | none => g.H * g.W

/-- Total potential of the grid. -/
def potSum (g : Grid) (gsc : List (Cell × Nat)) : Nat :=
  (gridCells g).sum (potOf g gsc)

/-- Termination measure of the A* loop. -/
def aPhi (g : Grid) (st : AState) : Nat :=
  st.heap.length + 2 * potSum g st.gsc

/-- State invariant of the A* loop (relative to the start cell and the
heuristic): gscore keys are distinct free cells with values below the key
count, realizable by an actual recorded predecessor chain; heap entries
refer to scored cells and dominate score-plus-heuristic; the start has
score `0` and no predecessor. -/
structure AInv (g : Grid) (start : Cell) (h : Cell → ℚ) (st : AState) : Prop where
  keys_nodup : (st.gsc.map Prod.fst).Nodup
  keys_free : ∀ pr ∈ st.gsc, FreeCell g pr.1
  count_bound : ∀ pr ∈ st.gsc, pr.2 + 1 ≤ st.gsc.length
  heap_dom : ∀ en ∈ st.heap, ∃ v, st.gsc.lookup en.2 = some v ∧
    ((v : ℚ) + h en.2 ≤ en.1 ∨ (en.1 = 0 ∧ v = 0))
  g_start : st.gsc.lookup start = some 0
  cf_start : st.cameFrom.lookup start = none
  cf_spec : ∀ c p, st.cameFrom.lookup c = some p →
    ∃ vc vp, st.gsc.lookup c = some vc ∧ st.gsc.lookup p = some vp ∧
      vp + 1 ≤ vc ∧ Step4 p c
  gdom_cf : ∀ c v, st.gsc.lookup c = some v → c = start ∨ (st.cameFrom.lookup c).isSome

/-- Frontier-crossing invariant of the A* loop, relative to one fixed
competitor grid path `p`: some index `i` on the path has gscore at most `i`
and a heap entry with priority at most `i + h`, and no later path cell has
gscore at most its index. -/
def ACrossing (h : Cell → ℚ) (p : List Cell) (st : AState) : Prop :=
  ∃ i, i + 1 ≤ p.length ∧
    (∃ v, st.gsc.lookup (wcell p i) = some v ∧ v ≤ i) ∧
    (∃ f, (f, wcell p i) ∈ st.heap ∧ f ≤ (i : ℚ) + h (wcell p i)) ∧
    ∀ j v, i < j → j + 1 ≤ p.length → st.gsc.lookup (wcell p j) = some v → ¬ v ≤ j

/-- Scenario C of the spec: the 5×5 all-free occupancy grid. -/
def grid5 : Grid where
  H := 5
  W := 5
  blocked := fun _ _ => false

/-- An explicit 9-cell path across scenario C's grid, from (0,0) to (4,4). -/
def path9 : List Cell :=
  [(0, 0), (1, 0), (2, 0), (3, 0), (4, 0), (4, 1), (4, 2), (4, 3), (4, 4)]

/-- Scenario A of the spec: rooms R1, R2, exit X, edges R1–R2 (door D1)
and R2–X (door D2). -/
def scenarioA : BuildingMap where
  nodes := [⟨"R1", some "room"⟩, ⟨"R2", some "room"⟩, ⟨"X", some "exit"⟩]
  edges := [{ src := "R1", dst := "R2", doorId := some "D1" },
    { src := "R2", dst := "X", doorId := some "D2" }]

/-- The path found by the BFS from R1 in scenario A. -/
def pathA : List Step :=
  [("R1", "R2", { src := "R1", dst := "R2", doorId := some "D1" }),
    ("R2", "X", { src := "R2", dst := "X", doorId := some "D2" })]

/-- A building where door D spans two edges: edge A–B (whose endpoint B
will be hazardous) declared first, and edge R–X (used by room R's EVAC
path) declared second.  Exhibits the door-state order dependence. -/
def bugMap : BuildingMap where
  nodes := [⟨"R", some "room"⟩, ⟨"X", some "exit"⟩, ⟨"A", some "plain"⟩,
    ⟨"B", some "plain"⟩]
  edges := [{ src := "A", dst := "B", doorId := some "D" },
    { src := "R", dst := "X", doorId := some "D" }]

/-- A building with a single isolated room and no edges, used to exhibit
the `defaultdict` mutation of the adjacency mapping during planning. -/
def soloMap : BuildingMap where
  nodes := [⟨"R0", some "room"⟩]
  edges := []

/-!  ## Lemmas and theorems -/

theorem tos_append_step (p : List Step) (s : Step) :
    tos (p ++ [s]) = tos p ++ [s.2.1] := by
  simp [tos]

theorem walk_append_step {m : BuildingMap} {haz locked : Finset String}
    {start n : String} {p : List Step} (hw : Walk m haz locked start p n)
    {s : Step} (hs : ValidStep m haz locked s) (hfrom : s.1 = n) :
    Walk m haz locked start (p ++ [s]) s.2.1 := by
  induction p generalizing start with
  | nil =>
    simp only [Walk] at hw
    subst hw
    exact ⟨hfrom, hs, rfl⟩
  | cons s₀ p ih =>
    obtain ⟨h1, h2, h3⟩ := hw
    exact ⟨h1, h2, ih h3⟩

theorem walk_getLast {m : BuildingMap} {haz locked : Finset String} :
    ∀ {p : List Step} {a b : String}, Walk m haz locked a p b → p ≠ [] →
    ∃ s, p.getLast? = some s ∧ s.2.1 = b
  | [], _, _, _, hne => absurd rfl hne
  | [s], a, b, hw, _ => ⟨s, rfl, hw.2.2⟩
  | s :: s₁ :: p, a, b, hw, _ => by
    obtain ⟨s₂, hget, hend⟩ :=
      walk_getLast (p := s₁ :: p) hw.2.2 (List.cons_ne_nil s₁ p)
    exact ⟨s₂, by rw [List.getLast?_cons_cons]; exact hget, hend⟩

theorem wnode_zero (start : String) (p : List Step) : wnode start p 0 = start := rfl

theorem wnode_cons (start : String) (s : Step) (p : List Step) (i : Nat) :
    wnode start (s :: p) (i + 1) = wnode s.2.1 p i := by
  simp [wnode, tos]

theorem walk_end {m : BuildingMap} {haz locked : Finset String} :
    ∀ {p : List Step} {a b : String}, Walk m haz locked a p b →
      wnode a p p.length = b
  | [], a, b, hw => hw
  | s :: p, a, b, hw => by
    rw [List.length_cons, wnode_cons]
    exact walk_end hw.2.2

theorem walk_step {m : BuildingMap} {haz locked : Finset String} :
    ∀ {p : List Step} {a b : String}, Walk m haz locked a p b →
    ∀ i, i < p.length →
      ∃ s ∈ p, ValidStep m haz locked s ∧ s.1 = wnode a p i ∧
        s.2.1 = wnode a p (i + 1)
  | [], _, _, _, i, hi => absurd hi (by simp)
  | s :: p, a, b, hw, 0, _ => by
    refine ⟨s, List.mem_cons_self s p, hw.2.1, ?_, ?_⟩
    · rw [wnode_zero, hw.1]
    · rw [wnode_cons, wnode_zero]
  | s :: p, a, b, hw, i + 1, hi => by
    obtain ⟨s₁, hmem, hv, h1, h2⟩ :=
      walk_step hw.2.2 i (by simpa using Nat.lt_of_succ_lt_succ hi)
    exact ⟨s₁, List.mem_cons_of_mem s hmem, hv, by rwa [wnode_cons],
      by rwa [wnode_cons]⟩

theorem mem_adjOf {edges : List Edge} {n nei : String} {w : Nat} {e : Edge} :
    (nei, w, e) ∈ adjOf edges n ↔
      e ∈ edges ∧ w = e.weight.getD 1 ∧
        ((e.src = n ∧ e.dst = nei) ∨ (e.dst = n ∧ e.src = nei)) := by
  constructor
  · intro hmem
    rcases List.mem_flatMap.mp hmem with ⟨e₀, he₀, hin⟩
    rcases List.mem_append.mp hin with hin | hin
    · by_cases hsrc : e₀.src = n
      · rw [if_pos hsrc] at hin
        simp only [List.mem_singleton, Prod.mk.injEq] at hin
        obtain ⟨h1, h2, rfl⟩ := hin
        exact ⟨he₀, h2, Or.inl ⟨hsrc, h1.symm⟩⟩
      · rw [if_neg hsrc] at hin
        exact absurd hin (List.not_mem_nil _)
    · by_cases hdst : e₀.dst = n
      · rw [if_pos hdst] at hin
        simp only [List.mem_singleton, Prod.mk.injEq] at hin
        obtain ⟨h1, h2, rfl⟩ := hin
        exact ⟨he₀, h2, Or.inr ⟨hdst, h1.symm⟩⟩
      · rw [if_neg hdst] at hin
        exact absurd hin (List.not_mem_nil _)
  · rintro ⟨he, hw, hdir | hdir⟩
    · refine List.mem_flatMap.mpr ⟨e, he, List.mem_append.mpr (Or.inl ?_)⟩
      simp [hdir.1, hdir.2, hw]
    · refine List.mem_flatMap.mpr ⟨e, he, List.mem_append.mpr (Or.inr ?_)⟩
      simp [hdir.1, hdir.2, hw]

theorem bfsExpand_spec (haz locked : Finset String) (node : String) (path : List Step) :
    ∀ (adj : List (String × Nat × Edge)) (q : List (String × List Step))
      (vis : List String),
    ∃ ns : List (String × Edge),
      (bfsExpand haz locked node path adj q vis).1 =
        q ++ ns.map (fun pr => (pr.1, path ++ [(node, pr.1, pr.2)])) ∧
      (bfsExpand haz locked node path adj q vis).2 = vis ++ ns.map Prod.fst ∧
      (∀ pr ∈ ns, pr.1 ∉ vis ∧ pr.1 ∉ haz ∧ lockedSkip locked pr.2 = false ∧
        ∃ w, (pr.1, w, pr.2) ∈ adj) ∧
      (ns.map Prod.fst).Nodup ∧
      (∀ nei w e, (nei, w, e) ∈ adj → nei ∉ haz → lockedSkip locked e = false →
        nei ∈ vis ∨ nei ∈ ns.map Prod.fst) := by
  intro adj
  induction adj with
  | nil =>
    intro q vis
    exact ⟨[], by simp [bfsExpand]⟩
  | cons hd rest ih =>
    obtain ⟨nei, w, e⟩ := hd
    intro q vis
    by_cases h1 : nei ∈ vis
    · obtain ⟨ns, e1, e2, e3, e4, e5⟩ := ih q vis
      refine ⟨ns, ?_, ?_, ?_, e4, ?_⟩
      · simpa [bfsExpand, h1] using e1
      · simpa [bfsExpand, h1] using e2
      · intro pr hpr
        obtain ⟨a1, a2, a3, w₀, a4⟩ := e3 pr hpr
        exact ⟨a1, a2, a3, w₀, List.mem_cons_of_mem _ a4⟩
      · intro nei₂ w₂ e₂ hmem hh hl
        rcases List.mem_cons.mp hmem with heq | hmem₂
        · obtain ⟨rfl, -, -⟩ := Prod.mk.injEq .. ▸ heq
          exact Or.inl h1
        · exact e5 nei₂ w₂ e₂ hmem₂ hh hl
    · by_cases h2 : nei ∈ haz
      · obtain ⟨ns, e1, e2, e3, e4, e5⟩ := ih q vis
        refine ⟨ns, ?_, ?_, ?_, e4, ?_⟩
        · simpa [bfsExpand, h1, h2] using e1
        · simpa [bfsExpand, h1, h2] using e2
        · intro pr hpr
          obtain ⟨a1, a2, a3, w₀, a4⟩ := e3 pr hpr
          exact ⟨a1, a2, a3, w₀, List.mem_cons_of_mem _ a4⟩
        · intro nei₂ w₂ e₂ hmem hh hl
          rcases List.mem_cons.mp hmem with heq | hmem₂
          · obtain ⟨rfl, -, -⟩ := Prod.mk.injEq .. ▸ heq
            exact absurd h2 hh
          · exact e5 nei₂ w₂ e₂ hmem₂ hh hl
      · by_cases h3 : lockedSkip locked e = true
        · obtain ⟨ns, e1, e2, e3, e4, e5⟩ := ih q vis
          refine ⟨ns, ?_, ?_, ?_, e4, ?_⟩
          · simpa [bfsExpand, h1, h2, h3] using e1
          · simpa [bfsExpand, h1, h2, h3] using e2
          · intro pr hpr
            obtain ⟨a1, a2, a3, w₀, a4⟩ := e3 pr hpr
            exact ⟨a1, a2, a3, w₀, List.mem_cons_of_mem _ a4⟩
          · intro nei₂ w₂ e₂ hmem hh hl
            rcases List.mem_cons.mp hmem with heq | hmem₂
            · obtain ⟨rfl, -, rfl⟩ := Prod.mk.injEq .. ▸ heq
              rw [hl] at h3
              exact absurd h3 (by simp)
            · exact e5 nei₂ w₂ e₂ hmem₂ hh hl
        · have h3' : lockedSkip locked e = false := by
            revert h3
            cases lockedSkip locked e <;> simp
          obtain ⟨ns, e1, e2, e3, e4, e5⟩ :=
            ih (q ++ [(nei, path ++ [(node, nei, e)])]) (vis ++ [nei])
          refine ⟨(nei, e) :: ns, ?_, ?_, ?_, ?_, ?_⟩
          · simpa [bfsExpand, h1, h2, h3'] using e1
          · simpa [bfsExpand, h1, h2, h3'] using e2
          · intro pr hpr
            rcases List.mem_cons.mp hpr with rfl | hpr₂
            · exact ⟨h1, h2, h3', w, List.mem_cons_self _ _⟩
            · obtain ⟨a1, a2, a3, w₀, a4⟩ := e3 pr hpr₂
              refine ⟨fun hmem => a1 (List.mem_append.mpr (Or.inl hmem)),
                a2, a3, w₀, List.mem_cons_of_mem _ a4⟩
          · refine List.nodup_cons.mpr ⟨?_, e4⟩
            intro hmem
            rcases List.mem_map.mp hmem with ⟨pr, hpr, hfst⟩
            exact (e3 pr hpr).1 (List.mem_append.mpr (Or.inr (by simp [hfst])))
          · intro nei₂ w₂ e₂ hmem hh hl
            rcases List.mem_cons.mp hmem with heq | hmem₂
            · obtain ⟨rfl, -, -⟩ := Prod.mk.injEq .. ▸ heq
              exact Or.inr (by simp)
            · rcases e5 nei₂ w₂ e₂ hmem₂ hh hl with hv | hn
              · rcases List.mem_append.mp hv with hv | hv
                · exact Or.inl hv
                · exact Or.inr (by
                    simp only [List.mem_singleton] at hv
                    simp [hv])
              · exact Or.inr (List.mem_map.mpr (by
                  rcases List.mem_map.mp hn with ⟨pr, hpr, hfst⟩
                  exact ⟨pr, List.mem_cons_of_mem _ hpr, hfst⟩))

theorem bfsInv_init (m : BuildingMap) (haz locked : Finset String) (start : String) :
    BfsInv m haz locked start [(start, [])] [start] := by
  refine ⟨List.mem_singleton_self start, List.nodup_singleton start, ?_, ?_,
    0, [(start, [])], [], by simp, by simp, by simp⟩
  · intro v hv
    simp only [List.mem_singleton] at hv
    exact Or.inl hv
  · intro en hen
    simp only [List.mem_singleton] at hen
    subst hen
    exact ⟨rfl, by simp [tos], by simp [tos], List.mem_singleton_self start,
      fun _ => rfl⟩

theorem bfsInv_head_min {m : BuildingMap} {haz locked : Finset String}
    {start node : String} {path : List Step} {qt : List (String × List Step)}
    {vis : List String}
    (inv : BfsInv m haz locked start ((node, path) :: qt) vis) :
    ∀ en ∈ (node, path) :: qt, path.length ≤ en.2.length := by
  obtain ⟨L, qa, qb, hq, ha, hb⟩ := inv.split
  intro en hen
  cases qa with
  | nil =>
    simp only [List.nil_append] at hq
    have hpath : path.length = L + 1 := hb (node, path) (hq ▸ List.mem_cons_self _ _)
    have hen' : en.2.length = L + 1 := hb en (hq ▸ hen)
    omega
  | cons a qa₁ =>
    have ha' : a = (node, path) ∧ qt = qa₁ ++ qb := by
      rw [List.cons_append] at hq
      exact ⟨(List.cons.injEq .. ▸ hq).1.symm, (List.cons.injEq .. ▸ hq).2⟩
    have hpath : path.length = L := by
      have := ha a (List.mem_cons_self _ _)
      rw [ha'.1] at this
      exact this
    rcases List.mem_cons.mp hen with rfl | hen
    · exact Nat.le_refl _
    · rw [ha'.2] at hen
      rcases List.mem_append.mp hen with h | h
      · have := ha _ (List.mem_cons_of_mem _ h)
        omega
      · have := hb _ h
        omega

theorem endpointsOf_length (edges : List Edge) :
    (endpointsOf edges).length = 2 * edges.length := by
  induction edges with
  | nil => rfl
  | cons e es ih =>
    simp only [endpointsOf, List.flatMap_cons, List.length_append,
      List.length_cons, List.length_nil] at ih ⊢
    omega

theorem vis_length_le {m : BuildingMap} {start : String} {vis : List String}
    (hnd : vis.Nodup)
    (hdom : ∀ v ∈ vis, v = start ∨ v ∈ endpointsOf m.edges) :
    vis.length ≤ 2 * m.edges.length + 1 := by
  have hsub : vis ⊆ start :: endpointsOf m.edges := by
    intro a ha
    rcases hdom a ha with rfl | h
    · exact List.mem_cons_self _ _
    · exact List.mem_cons_of_mem _ h
  have := (List.subperm_of_subset hnd hsub).length_le
  rw [List.length_cons, endpointsOf_length] at this
  omega

theorem bfsInv_step {m : BuildingMap} {haz locked : Finset String}
    {start node : String} {path : List Step} {qt : List (String × List Step)}
    {vis : List String}
    (inv : BfsInv m haz locked start ((node, path) :: qt) vis) :
    BfsInv m haz locked start
      (bfsExpand haz locked node path (adjOf m.edges node) qt vis).1
      (bfsExpand haz locked node path (adjOf m.edges node) qt vis).2 := by
  obtain ⟨ns, e1, e2, e3, e4, e5⟩ :=
    bfsExpand_spec haz locked node path (adjOf m.edges node) qt vis
  rw [e1, e2]
  obtain ⟨hwalk, htosnd, htossub, hnodevis, -⟩ :=
    inv.entries (node, path) (List.mem_cons_self _ _)
  constructor
  · exact List.mem_append.mpr (Or.inl inv.start_vis)
  · refine List.Nodup.append inv.vis_nodup e4 ?_
    intro a ha hans
    rcases List.mem_map.mp hans with ⟨pr, hpr, rfl⟩
    exact (e3 pr hpr).1 ha
  · intro v hv
    rcases List.mem_append.mp hv with hv | hv
    · exact inv.vis_dom v hv
    · rcases List.mem_map.mp hv with ⟨pr, hpr, rfl⟩
      obtain ⟨-, -, -, w, hadj⟩ := e3 pr hpr
      have hm := mem_adjOf.mp hadj
      right
      rcases hm.2.2 with ⟨-, h⟩ | ⟨-, h⟩ <;>
        exact List.mem_flatMap.mpr ⟨_, hm.1, by rw [← h]; simp⟩
  · intro en hen
    rcases List.mem_append.mp hen with hen | hen
    · have h := inv.entries en (List.mem_cons_of_mem _ hen)
      exact ⟨h.1, h.2.1, fun t ht => List.mem_append.mpr (Or.inl (h.2.2.1 t ht)),
        List.mem_append.mpr (Or.inl h.2.2.2.1), h.2.2.2.2⟩
    · rcases List.mem_map.mp hen with ⟨pr, hpr, rfl⟩
      obtain ⟨hnv, hnh, hnl, w, hadj⟩ := e3 pr hpr
      have hm := mem_adjOf.mp hadj
      have hvalid : ValidStep m haz locked (node, pr.1, pr.2) := by
        refine ⟨hm.1, ?_, hnh, hnl⟩
        rcases hm.2.2 with ⟨h1, h2⟩ | ⟨h1, h2⟩
        · exact Or.inl ⟨h1, h2⟩
        · exact Or.inr ⟨h2, h1⟩
      refine ⟨walk_append_step hwalk hvalid rfl, ?_, ?_, ?_, by simp⟩
      · rw [tos_append_step]
        refine List.Nodup.append htosnd (List.nodup_singleton _) ?_
        intro a ha hasing
        simp only [List.mem_singleton] at hasing
        exact hnv (hasing ▸ htossub a ha)
      · intro t ht
        rw [tos_append_step] at ht
        rcases List.mem_append.mp ht with ht | ht
        · exact List.mem_append.mpr (Or.inl (htossub t ht))
        · simp only [List.mem_singleton] at ht
          subst ht
          exact List.mem_append.mpr (Or.inr (List.mem_map.mpr ⟨pr, hpr, rfl⟩))
      · exact List.mem_append.mpr (Or.inr (List.mem_map.mpr ⟨pr, hpr, rfl⟩))
  · obtain ⟨L, qa, qb, hq, ha, hb⟩ := inv.split
    have hlen : ∀ en ∈ ns.map fun pr => ((pr.1 : String), path ++ [(node, pr.1, pr.2)]),
        en.2.length = path.length + 1 := by
      intro en hen
      rcases List.mem_map.mp hen with ⟨pr, hpr, rfl⟩
      simp
    cases qa with
    | nil =>
      simp only [List.nil_append] at hq
      have hpath : path.length = L + 1 := hb (node, path) (hq ▸ List.mem_cons_self _ _)
      refine ⟨L + 1, qt, _, rfl, ?_, ?_⟩
      · intro en hen
        exact hb en (hq ▸ List.mem_cons_of_mem _ hen)
      · intro en hen
        rw [hlen en hen, hpath]
    | cons a qa₁ =>
      have ha' : a = (node, path) ∧ qt = qa₁ ++ qb := by
        rw [List.cons_append] at hq
        exact ⟨(List.cons.injEq .. ▸ hq).1.symm, (List.cons.injEq .. ▸ hq).2⟩
      have hpath : path.length = L := by
        have := ha a (List.mem_cons_self _ _)
        rw [ha'.1] at this
        exact this
      refine ⟨L, qa₁, qb ++ ns.map fun pr => (pr.1, path ++ [(node, pr.1, pr.2)]),
        by rw [ha'.2, List.append_assoc], ?_, ?_⟩
      · intro en hen
        exact ha en (List.mem_cons_of_mem _ hen)
      · intro en hen
        rcases List.mem_append.mp hen with h | h
        · exact hb en h
        · rw [hlen en h, hpath]

theorem bfsPhi_step {m : BuildingMap} {haz locked : Finset String}
    {start node : String} {path : List Step} {qt : List (String × List Step)}
    {vis : List String}
    (inv : BfsInv m haz locked start ((node, path) :: qt) vis) :
    bfsPhi m.edges
      (bfsExpand haz locked node path (adjOf m.edges node) qt vis).1
      (bfsExpand haz locked node path (adjOf m.edges node) qt vis).2 <
    bfsPhi m.edges ((node, path) :: qt) vis := by
  have inv' := bfsInv_step inv
  obtain ⟨ns, e1, e2, e3, e4, e5⟩ :=
    bfsExpand_spec haz locked node path (adjOf m.edges node) qt vis
  have hb' : (bfsExpand haz locked node path (adjOf m.edges node) qt vis).2.length ≤
      2 * m.edges.length + 1 :=
    vis_length_le inv'.vis_nodup inv'.vis_dom
  rw [e1, e2] at *
  simp only [bfsPhi, List.length_append, List.length_map, List.length_cons] at *
  omega

theorem bfsAux_sound {m : BuildingMap} {haz locked : Finset String} {start : String} :
    ∀ (fuel : Nat) (q : List (String × List Step)) (vis : List String),
    BfsInv m haz locked start q vis →
    ∀ p, bfsAux m haz locked fuel q vis = some p →
      ∃ t, Walk m haz locked start p t ∧ t ∈ m.exits ∧ (tos p).Nodup ∧
        (p = [] → t = start) := by
  intro fuel
  induction fuel with
  | zero =>
    intro q vis _ p h
    exact absurd h (by simp [bfsAux])
  | succ fuel ih =>
    intro q vis inv p h
    rcases q with _ | ⟨⟨node, path⟩, qt⟩
    · exact absurd h (by simp [bfsAux])
    · by_cases hex : node ∈ m.exits
      · simp only [bfsAux, if_pos hex, Option.some.injEq] at h
        subst h
        obtain ⟨hwalk, hnd, -, -, hemp⟩ :=
          inv.entries (node, path) (List.mem_cons_self _ _)
        exact ⟨node, hwalk, hex, hnd, hemp⟩
      · simp only [bfsAux, if_neg hex] at h
        exact ih _ _ (bfsInv_step inv) p h

theorem bfsAux_master {m : BuildingMap} {haz locked : Finset String} {start : String}
    {w : List Step} {t : String}
    (hw : Walk m haz locked start w t) (hte : t ∈ m.exits) :
    ∀ (fuel : Nat) (q : List (String × List Step)) (vis : List String),
    BfsInv m haz locked start q vis →
    Crossing start w q vis →
    bfsPhi m.edges q vis < fuel →
    ∃ res, bfsAux m haz locked fuel q vis = some res ∧ res.length ≤ w.length := by
  intro fuel
  induction fuel with
  | zero =>
    intro q vis _ _ hphi
    omega
  | succ fuel ih =>
    intro q vis inv cross hphi
    rcases q with _ | ⟨⟨node, path⟩, qt⟩
    · obtain ⟨i, hi, ⟨en, hen, -, -⟩, -⟩ := cross
      exact absurd hen (List.not_mem_nil en)
    · obtain ⟨i, hi, ⟨en, hen, hen1, hen2⟩, hmax⟩ := cross
      by_cases hex : node ∈ m.exits
      · refine ⟨path, by simp only [bfsAux, if_pos hex], ?_⟩
        have := bfsInv_head_min inv en hen
        omega
      · obtain ⟨ns, e1, e2, e3, e4, e5⟩ :=
          bfsExpand_spec haz locked node path (adjOf m.edges node) qt vis
        have hstep := bfsInv_step inv
        have hphi' := bfsPhi_step inv
        have hheadmin : path.length ≤ en.2.length := bfsInv_head_min inv en hen
        -- Crossing is preserved
        have cross' : Crossing start w
            (bfsExpand haz locked node path (adjOf m.edges node) qt vis).1
            (bfsExpand haz locked node path (adjOf m.edges node) qt vis).2 := by
          rw [e1, e2]
          by_cases hB : ∃ j, i < j ∧ j ≤ w.length ∧
              wnode start w j ∈ vis ++ ns.map Prod.fst
          · -- some later walk node is visited now: move the index forward
            obtain ⟨j, hij, hjle, hjmem⟩ := hB
            set P : Nat → Prop := fun k => wnode start w k ∈ vis ++ ns.map Prod.fst
            have hPj : P j := hjmem
            have hile : j ≤ Nat.findGreatest P w.length := Nat.le_findGreatest hjle hPj
            have hPi' : P (Nat.findGreatest P w.length) :=
              Nat.findGreatest_spec hjle hPj
            have hI'le : Nat.findGreatest P w.length ≤ w.length :=
              Nat.findGreatest_le _
            set i' := Nat.findGreatest P w.length with hi'def
            have hii' : i < i' := Nat.lt_of_lt_of_le hij hile
            have hnvis : wnode start w i' ∉ vis := hmax i' hii' hI'le
            have hns : wnode start w i' ∈ ns.map Prod.fst := by
              rcases List.mem_append.mp hPi' with h | h
              · exact absurd h hnvis
              · exact h
            rcases List.mem_map.mp hns with ⟨pr, hpr, hpr1⟩
            refine ⟨i', hI'le, ⟨(pr.1, path ++ [(node, pr.1, pr.2)]), ?_, ?_, ?_⟩, ?_⟩
            · exact List.mem_append.mpr (Or.inr (List.mem_map.mpr ⟨pr, hpr, rfl⟩))
            · exact hpr1
            · simp only [List.length_append, List.length_singleton]
              omega
            · intro k hk hkle
              exact Nat.findGreatest_is_greatest hk hkle
          · -- no later walk node visited: the old crossing entry must survive
            push_neg at hB
            rcases List.mem_cons.mp hen with rfl | henqt
            · -- the crossing entry was the dequeued head: its walk successor
              -- must now be visited, contradicting the case assumption
              exfalso
              have hilt : i < w.length := by
                rcases Nat.lt_or_ge i w.length with h | h
                · exact h
                · have hiw : i = w.length := le_antisymm hi h
                  subst hiw
                  have hnt : node = t := by
                    have h0 : node = wnode start w w.length := hen1
                    rw [h0, walk_end hw]
                  exact absurd (hnt ▸ hte) hex
              obtain ⟨s, hsmem, hsv, hs1, hs2⟩ := walk_step hw i hilt
              have hni : node = wnode start w i := hen1
              have hadj : (wnode start w (i + 1), s.2.2.weight.getD 1, s.2.2) ∈
                  adjOf m.edges node := by
                refine mem_adjOf.mpr ⟨hsv.1, rfl, ?_⟩
                rcases hsv.2.1 with ⟨ha, hb⟩ | ⟨ha, hb⟩
                · exact Or.inl ⟨by rw [ha, hs1, hni], by rw [hb, hs2]⟩
                · exact Or.inr ⟨by rw [hb, hs1, hni], by rw [ha, hs2]⟩
              have hreach := e5 _ _ _ hadj (hs2 ▸ hsv.2.2.1) hsv.2.2.2
              have : wnode start w (i + 1) ∈ vis ++ ns.map Prod.fst := by
                rcases hreach with h | h
                · exact List.mem_append.mpr (Or.inl h)
                · exact List.mem_append.mpr (Or.inr h)
              exact hB (i + 1) (Nat.lt_succ_self i) hilt this
            · exact ⟨i, hi, ⟨en, List.mem_append.mpr (Or.inl henqt), hen1, hen2⟩,
                fun k hk hkle hkmem => hB k hk hkle hkmem⟩
        obtain ⟨res, hres, hlen⟩ := ih _ _ hstep cross' (by omega)
        exact ⟨res, by simpa only [bfsAux, if_neg hex] using hres, hlen⟩

theorem crossing_init (start : String) (w : List Step) :
    Crossing start w [(start, [])] [start] := by
  set P : Nat → Prop := fun j => wnode start w j = start
  have hP0 : P 0 := rfl
  have hPi : P (Nat.findGreatest P w.length) :=
    Nat.findGreatest_spec (Nat.zero_le _) hP0
  refine ⟨Nat.findGreatest P w.length, Nat.findGreatest_le _,
    ⟨(start, []), List.mem_singleton_self _, hPi.symm, Nat.zero_le _⟩, ?_⟩
  intro j hj hjle hmem
  simp only [List.mem_singleton] at hmem
  exact Nat.findGreatest_is_greatest hj hjle hmem

theorem bfsPhi_init_lt {m : BuildingMap} (start : String) :
    bfsPhi m.edges [(start, [])] [start] < bfsFuel m := by
  simp only [bfsPhi, bfsFuel, List.length_singleton]
  omega

theorem bfs_sound {m : BuildingMap} {haz locked : Finset String} {start : String}
    {p : List Step} (h : bfs_to_exit m haz locked start = some p) :
    start ∉ haz ∧
      ∃ t, Walk m haz locked start p t ∧ t ∈ m.exits ∧ (tos p).Nodup ∧
        (p = [] → t = start) := by
  rw [bfs_to_exit] at h
  split_ifs at h with hh
  exact ⟨hh, bfsAux_sound (bfsFuel m) _ _ (bfsInv_init m haz locked start) p h⟩

theorem bfs_min {m : BuildingMap} {haz locked : Finset String} {start : String}
    {p : List Step} (h : bfs_to_exit m haz locked start = some p)
    {w : List Step} {t : String}
    (hw : Walk m haz locked start w t) (hte : t ∈ m.exits) :
    p.length ≤ w.length := by
  rw [bfs_to_exit] at h
  split_ifs at h with hh
  obtain ⟨res, hres, hlen⟩ := bfsAux_master hw hte (bfsFuel m) _ _
    (bfsInv_init m haz locked start) (crossing_init start w) (bfsPhi_init_lt start)
  rw [h] at hres
  rw [Option.some.inj hres]
  exact hlen

theorem bfs_complete {m : BuildingMap} {haz locked : Finset String} {start : String}
    (hsh : start ∉ haz) {w : List Step} {t : String}
    (hw : Walk m haz locked start w t) (hte : t ∈ m.exits) :
    ∃ p, bfs_to_exit m haz locked start = some p := by
  obtain ⟨res, hres, -⟩ := bfsAux_master hw hte (bfsFuel m) _ _
    (bfsInv_init m haz locked start) (crossing_init start w) (bfsPhi_init_lt start)
  rw [bfs_to_exit, if_neg hsh]
  exact ⟨res, hres⟩

theorem lookup_map_self {α β : Type} [DecidableEq α] (f : α → β) :
    ∀ (l : List α) (r : α), r ∈ l →
      (l.map fun x => (x, f x)).lookup r = some (f r) := by
  intro l
  induction l with
  | nil =>
    intro r hr
    exact absurd hr (List.not_mem_nil r)
  | cons a l ih =>
    intro r hr
    by_cases h : r = a
    · subst h
      simp [List.lookup_cons]
    · have hba : (r == a) = false := beq_eq_false_iff_ne.mpr h
      simp only [List.map_cons, List.lookup_cons, hba]
      exact ih r (List.mem_of_ne_of_mem h hr)

/-- C2: whenever `bfs_to_exit(start)` returns a path, the number of edges in
that path equals the minimum hop count over all walks from `start` to any
exit node that use only non-hazardous nodes (the start included) and avoid
edges carrying a door id of the locked-door override set: the returned path
is itself such a walk, and no such walk is strictly shorter. -/
theorem C2_bfs_returns_minimum_hop_safe_path (m : BuildingMap)
    (haz locked : Finset String) (start : String) (p : List Step)
    (h : bfs_to_exit m haz locked start = some p) :
    ExitWalk m haz locked start p ∧
      ∀ q, ExitWalk m haz locked start q → p.length ≤ q.length := by
  obtain ⟨hsh, t, hwalk, hte, -, -⟩ := bfs_sound h
  refine ⟨⟨hsh, t, hwalk, hte⟩, ?_⟩
  rintro q ⟨-, t₂, hw₂, hte₂⟩
  exact bfs_min h hw₂ hte₂

theorem C2_bfs_returns_minimum_hop_safe_path_witness :
    bfs_to_exit scenarioA ∅ ∅ "R1" = some pathA ∧
      ExitWalk scenarioA ∅ ∅ "R1" pathA ∧
      ∀ q, ExitWalk scenarioA ∅ ∅ "R1" q → pathA.length ≤ q.length :=
  ⟨by rfl, C2_bfs_returns_minimum_hop_safe_path scenarioA ∅ ∅ "R1" pathA (by rfl)⟩

/-- C3: for a well-formed building definition (unique node ids, per the
spec's data model — without which Python's `path[-1]` could fault on a
room that is also exit-tagged), `compute_plan` classifies a room as EVAC
exactly when a hazard-respecting walk to some exit exists (avoiding
hazardous nodes including the room itself and locked doors), and as
LOCKDOWN — a normal outcome, not an error — exactly when none does. -/
theorem C3_evac_iff_safe_path_exists (m : BuildingMap) (haz locked : Finset String)
    (hwf : m.Wf) (r : String) (hr : r ∈ m.rooms) :
    ((∃ x pe, (compute_plan m haz locked).rooms.lookup r = some (.evac x pe)) ↔
      ∃ p, ExitWalk m haz locked r p) ∧
    ((compute_plan m haz locked).rooms.lookup r = some .lockdown ↔
      ¬ ∃ p, ExitWalk m haz locked r p) := by
  have hlook : (compute_plan m haz locked).rooms.lookup r =
      some (roomPlanOf m haz locked r) :=
    lookup_map_self (roomPlanOf m haz locked) m.rooms r hr
  rcases hbfs : bfs_to_exit m haz locked r with - | path
  · have hplan : roomPlanOf m haz locked r = .lockdown := by
      rw [roomPlanOf, hbfs]
    have hno : ¬ ∃ p, ExitWalk m haz locked r p := by
      rintro ⟨p, hsh, t, hw, hte⟩
      obtain ⟨p₂, hp₂⟩ := bfs_complete hsh hw hte
      rw [hbfs] at hp₂
      exact Option.noConfusion hp₂
    constructor
    · constructor
      · rintro ⟨x, pe, hx⟩
        rw [hlook, hplan] at hx
        exact absurd (Option.some.inj hx) (by simp)
      · intro hp
        exact absurd hp hno
    · constructor
      · intro _
        exact hno
      · intro _
        rw [hlook, hplan]
  · have hsome : ∃ x pe, roomPlanOf m haz locked r = .evac x pe := by
      rw [roomPlanOf, hbfs]
      exact ⟨_, _, rfl⟩
    obtain ⟨hsh, t, hw, hte, -, -⟩ := bfs_sound hbfs
    obtain ⟨x, pe, hplan⟩ := hsome
    constructor
    · constructor
      · intro _
        exact ⟨path, hsh, t, hw, hte⟩
      · intro _
        exact ⟨x, pe, by rw [hlook, hplan]⟩
    · constructor
      · intro hx
        rw [hlook, hplan] at hx
        exact absurd (Option.some.inj hx) (by simp)
      · intro hno
        exact absurd ⟨path, hsh, t, hw, hte⟩ hno

theorem C3_evac_iff_safe_path_exists_witness :
    scenarioA.Wf ∧ "R1" ∈ scenarioA.rooms ∧
      (((∃ x pe, (compute_plan scenarioA ∅ ∅).rooms.lookup "R1" =
          some (.evac x pe)) ↔ ∃ p, ExitWalk scenarioA ∅ ∅ "R1" p) ∧
        ((compute_plan scenarioA ∅ ∅).rooms.lookup "R1" = some .lockdown ↔
          ¬ ∃ p, ExitWalk scenarioA ∅ ∅ "R1" p)) :=
  ⟨by decide, by decide,
    C3_evac_iff_safe_path_exists scenarioA ∅ ∅ (by decide) "R1" (by decide)⟩

/-- C4: a start node in the hazard set makes `bfs_to_exit` return no path
immediately, and `compute_plan` classifies such a room LOCKDOWN
unconditionally — even when physically passable routes from it remain. -/
theorem C4_hazardous_start_is_lockdown (m : BuildingMap)
    (haz locked : Finset String) (r : String) (hr : r ∈ haz) :
    bfs_to_exit m haz locked r = none ∧
      (r ∈ m.rooms →
        (compute_plan m haz locked).rooms.lookup r = some .lockdown) := by
  have hbfs : bfs_to_exit m haz locked r = none := by
    rw [bfs_to_exit, if_pos hr]
  refine ⟨hbfs, fun hrm => ?_⟩
  have hlook : (compute_plan m haz locked).rooms.lookup r =
      some (roomPlanOf m haz locked r) :=
    lookup_map_self (roomPlanOf m haz locked) m.rooms r hrm
  rw [hlook, roomPlanOf, hbfs]

theorem C4_hazardous_start_is_lockdown_witness :
    ("R2" : String) ∈ ({"R2"} : Finset String) ∧
      bfs_to_exit scenarioA {"R2"} ∅ "R2" = none ∧
      ("R2" ∈ scenarioA.rooms →
        (compute_plan scenarioA {"R2"} ∅).rooms.lookup "R2" = some .lockdown) :=
  ⟨by decide, C4_hazardous_start_is_lockdown scenarioA {"R2"} ∅ "R2" (by decide)⟩

/-- C10: every nonempty path returned by `bfs_to_exit` is a well-formed safe
walk: its steps chain from `start` through declared edges joining their
endpoints, destinations are non-hazardous and pairwise distinct, no
traversed edge carries a locked door id (all part of `Walk`), and the final
destination is an exit-tagged node. -/
theorem C10_returned_path_is_wellformed_safe_walk (m : BuildingMap)
    (haz locked : Finset String) (start : String) (p : List Step)
    (h : bfs_to_exit m haz locked start = some p) (hne : p ≠ []) :
    (tos p).Nodup ∧
      ∃ t s, Walk m haz locked start p t ∧ t ∈ m.exits ∧
        p.getLast? = some s ∧ s.2.1 = t := by
  obtain ⟨-, t, hw, hte, hnd, -⟩ := bfs_sound h
  obtain ⟨s, hs, hst⟩ := walk_getLast hw hne
  exact ⟨hnd, t, s, hw, hte, hs, hst⟩

theorem C10_returned_path_is_wellformed_safe_walk_witness :
    bfs_to_exit scenarioA ∅ ∅ "R1" = some pathA ∧ pathA ≠ [] ∧
      ((tos pathA).Nodup ∧
        ∃ t s, Walk scenarioA ∅ ∅ "R1" pathA t ∧ t ∈ scenarioA.exits ∧
          pathA.getLast? = some s ∧ s.2.1 = t) :=
  ⟨by rfl, by decide,
    C10_returned_path_is_wellformed_safe_walk scenarioA ∅ ∅ "R1" pathA
      (by rfl) (by decide)⟩

theorem lookup_map_update (l : List (String × DoorSt)) (k : String) (v : DoorSt)
    (h : ∃ pr ∈ l, pr.1 = k) :
    (l.map fun p => if p.1 = k then (k, v) else p).lookup k = some v := by
  induction l with
  | nil =>
    obtain ⟨pr, hpr, -⟩ := h
    exact absurd hpr (List.not_mem_nil pr)
  | cons p l ih =>
    obtain ⟨pk, pv⟩ := p
    by_cases hp : pk = k
    · subst hp
      simp [List.lookup_cons]
    · obtain ⟨pr, hpr, hpr1⟩ := h
      rcases List.mem_cons.mp hpr with rfl | hmem
      · exact absurd hpr1 hp
      · have hba : (k == pk) = false :=
          beq_eq_false_iff_ne.mpr fun hh => hp hh.symm
        simp only [List.map_cons, if_neg hp, List.lookup_cons, hba]
        exact ih ⟨pr, hmem, hpr1⟩

theorem lookup_map_update_ne (l : List (String × DoorSt)) (k k₂ : String)
    (v : DoorSt) (h : k₂ ≠ k) :
    (l.map fun p => if p.1 = k then (k, v) else p).lookup k₂ = l.lookup k₂ := by
  induction l with
  | nil => rfl
  | cons p l ih =>
    obtain ⟨pk, pv⟩ := p
    by_cases hp : pk = k
    · have h1 : (k₂ == k) = false := beq_eq_false_iff_ne.mpr h
      have h2 : (k₂ == pk) = false := beq_eq_false_iff_ne.mpr (hp ▸ h)
      simp only [List.map_cons, if_pos hp, List.lookup_cons, h1, h2]
      exact ih
    · simp only [List.map_cons, if_neg hp, List.lookup_cons]
      cases hk : (k₂ == pk) <;> simp [ih]

theorem lookup_append_single (l : List (String × DoorSt)) (k : String) (v : DoorSt)
    (h : ∀ pr ∈ l, pr.1 ≠ k) : (l ++ [(k, v)]).lookup k = some v := by
  induction l with
  | nil => simp [List.lookup_cons]
  | cons p l ih =>
    obtain ⟨pk, pv⟩ := p
    have hba : (k == pk) = false :=
      beq_eq_false_iff_ne.mpr fun hh => h (pk, pv) (List.mem_cons_self _ _) hh.symm
    simp only [List.cons_append, List.lookup_cons, hba]
    exact ih fun pr hpr => h pr (List.mem_cons_of_mem _ hpr)

theorem lookup_append_single_ne (l : List (String × DoorSt)) (k k₂ : String)
    (v : DoorSt) (h : k₂ ≠ k) :
    (l ++ [(k, v)]).lookup k₂ = l.lookup k₂ := by
  induction l with
  | nil => simp [List.lookup_cons, beq_eq_false_iff_ne.mpr h]
  | cons p l ih =>
    obtain ⟨pk, pv⟩ := p
    simp only [List.cons_append, List.lookup_cons]
    cases hk : (k₂ == pk) <;> simp [ih]

theorem lookup_setAssoc_self (l : List (String × DoorSt)) (k : String) (v : DoorSt) :
    (setAssoc l k v).lookup k = some v := by
  rw [setAssoc]
  split_ifs with h
  · refine lookup_map_update l k v ?_
    obtain ⟨pr, hpr, hbeq⟩ := List.any_eq_true.mp h
    exact ⟨pr, hpr, beq_iff_eq.mp hbeq⟩
  · refine lookup_append_single l k v ?_
    intro pr hpr hpk
    exact h (List.any_eq_true.mpr ⟨pr, hpr, beq_iff_eq.mpr hpk⟩)

theorem lookup_setAssoc_ne (l : List (String × DoorSt)) (k k₂ : String)
    (v : DoorSt) (h : k₂ ≠ k) :
    (setAssoc l k v).lookup k₂ = l.lookup k₂ := by
  rw [setAssoc]
  split_ifs with hc
  · exact lookup_map_update_ne l k k₂ v h
  · exact lookup_append_single_ne l k k₂ v h

/-- Unfolding of the door-loop body on an edge without a (truthy) door id. -/
theorem doorStep_eq_none {haz : Finset String} {used : List String}
    {ds : List (String × DoorSt)} {e : Edge} (h : truthyDoor e.doorId = none) :
    doorStep haz used ds e = ds := by
  rw [doorStep, h]

/-- Unfolding of the door-loop body on an edge carrying door id `d`. -/
theorem doorStep_eq_some {haz : Finset String} {used : List String}
    {ds : List (String × DoorSt)} {e : Edge} {d : String}
    (h : truthyDoor e.doorId = some d) :
    doorStep haz used ds e =
      if e.src ∈ haz ∨ e.dst ∈ haz then setAssoc ds d .threat
      else if d ∈ used then setAssoc ds d .unlock
      else if lookupDoor ds d = .threat then ds
      else setAssoc ds d .lockIdle := by
  rw [doorStep, h]

/-- Effect of one door-loop iteration on the state of door `d`, when every
edge carrying `d` has non-hazardous endpoints. -/
theorem doorStep_d (haz : Finset String) (used : List String) (d : String)
    (e : Edge) (ds : List (String × DoorSt))
    (hsafe : truthyDoor e.doorId = some d → e.src ∉ haz ∧ e.dst ∉ haz)
    (hP : ds.lookup d = none ∨
      ds.lookup d = some (if d ∈ used then .unlock else .lockIdle)) :
    ((doorStep haz used ds e).lookup d = none ∨
      (doorStep haz used ds e).lookup d =
        some (if d ∈ used then .unlock else .lockIdle)) ∧
    (truthyDoor e.doorId = some d →
      (doorStep haz used ds e).lookup d =
        some (if d ∈ used then .unlock else .lockIdle)) ∧
    (ds.lookup d = some (if d ∈ used then .unlock else .lockIdle) →
      (doorStep haz used ds e).lookup d =
        some (if d ∈ used then .unlock else .lockIdle)) := by
  rcases htd : truthyDoor e.doorId with - | d₂
  · rw [doorStep_eq_none htd]
    exact ⟨hP, fun h => Option.noConfusion h, fun h => h⟩
  · by_cases hdd : d₂ = d
    · subst hdd
      obtain ⟨hs1, hs2⟩ := hsafe htd
      have hnh : ¬ (e.src ∈ haz ∨ e.dst ∈ haz) := by
        rintro (h | h)
        · exact hs1 h
        · exact hs2 h
      rw [doorStep_eq_some htd, if_neg hnh]
      by_cases hu : d₂ ∈ used
      · simp only [if_pos hu]
        have heq := lookup_setAssoc_self ds d₂ DoorSt.unlock
        exact ⟨Or.inr heq, fun _ => heq, fun _ => heq⟩
      · simp only [if_neg hu]
        have hnt : ¬ lookupDoor ds d₂ = DoorSt.threat := by
          rw [lookupDoor]
          rcases hP with h | h
          · rw [h]
            simp
          · rw [h]
            simp [if_neg hu]
        rw [if_neg hnt]
        have heq := lookup_setAssoc_self ds d₂ DoorSt.lockIdle
        exact ⟨Or.inr heq, fun _ => heq, fun _ => heq⟩
    · have hun : (doorStep haz used ds e).lookup d = ds.lookup d := by
        rw [doorStep_eq_some htd]
        split_ifs with h1 h2 h3
        · exact lookup_setAssoc_ne ds d₂ d DoorSt.threat fun hh => hdd hh.symm
        · exact lookup_setAssoc_ne ds d₂ d DoorSt.unlock fun hh => hdd hh.symm
        · rfl
        · exact lookup_setAssoc_ne ds d₂ d DoorSt.lockIdle fun hh => hdd hh.symm
      refine ⟨by rw [hun]; exact hP, ?_, by rw [hun]; exact fun h => h⟩
      intro h
      exact absurd (Option.some.inj h) fun hh => hdd hh

theorem doorsFold_spec (haz : Finset String) (used : List String) (d : String) :
    ∀ (edges : List Edge) (ds : List (String × DoorSt)),
    (∀ e ∈ edges, truthyDoor e.doorId = some d → e.src ∉ haz ∧ e.dst ∉ haz) →
    (ds.lookup d = none ∨
      ds.lookup d = some (if d ∈ used then .unlock else .lockIdle)) →
    ((∃ e ∈ edges, truthyDoor e.doorId = some d) ∨
        ds.lookup d = some (if d ∈ used then .unlock else .lockIdle)) →
    (edges.foldl (doorStep haz used) ds).lookup d =
      some (if d ∈ used then .unlock else .lockIdle) := by
  intro edges
  induction edges with
  | nil =>
    intro ds _ hP hex
    rcases hex with ⟨e, he, -⟩ | h
    · exact absurd he (List.not_mem_nil e)
    · exact h
  | cons e es ih =>
    intro ds hsafe hP hex
    obtain ⟨hP', hcar, hkeep⟩ := doorStep_d haz used d e ds
      (hsafe e (List.mem_cons_self _ _)) hP
    rw [List.foldl_cons]
    refine ih (doorStep haz used ds e)
      (fun e₂ he₂ => hsafe e₂ (List.mem_cons_of_mem _ he₂)) hP' ?_
    rcases hex with ⟨e₂, he₂, htd₂⟩ | hds
    · rcases List.mem_cons.mp he₂ with rfl | hmem
      · exact Or.inr (hcar htd₂)
      · exact Or.inl ⟨e₂, hmem, htd₂⟩
    · exact Or.inr (hkeep hds)

theorem mem_usedByAny_iff (m : BuildingMap) (haz locked : Finset String)
    (d : String) :
    d ∈ usedByAny m haz locked ↔
      ∃ r x pe, (r, RoomPlan.evac x pe) ∈ (compute_plan m haz locked).rooms ∧
        d ∈ pe := by
  constructor
  · intro hd
    rcases List.mem_flatMap.mp hd with ⟨r, hr, hmem⟩
    rcases hbfs : bfs_to_exit m haz locked r with - | path
    · rw [hbfs] at hmem
      cases hmem
    · rw [hbfs] at hmem
      have hmem₂ : d ∈ pathDoorIds path := hmem
      have hplan : ∃ x, roomPlanOf m haz locked r =
          RoomPlan.evac x (pathDoorIds path) := by
        rw [roomPlanOf, hbfs]
        exact ⟨_, rfl⟩
      obtain ⟨x, hx⟩ := hplan
      exact ⟨r, x, pathDoorIds path,
        List.mem_map.mpr ⟨r, hr, by rw [hx]⟩, hmem₂⟩
  · rintro ⟨r, x, pe, hmem, hd⟩
    rcases List.mem_map.mp hmem with ⟨r₂, hr₂, heq⟩
    have hr2r : r₂ = r := congrArg Prod.fst heq
    have hplan : roomPlanOf m haz locked r₂ = .evac x pe :=
      congrArg Prod.snd heq
    subst hr2r
    rcases hbfs : bfs_to_exit m haz locked r₂ with - | path
    · rw [roomPlanOf, hbfs] at hplan
      cases hplan
    · rw [roomPlanOf, hbfs] at hplan
      have hpe : pathDoorIds path = pe := (RoomPlan.evac.injEq .. ▸ hplan).2
      refine List.mem_flatMap.mpr ⟨r₂, hr₂, ?_⟩
      rw [hbfs]
      show d ∈ pathDoorIds path
      exact hpe ▸ hd

/-- C1: on `bugMap` (door D spans edges A–B and R–X) with hazard set {B},
edge A–B carries door D with hazardous endpoint B, yet the plan leaves D
UNLOCK: the later used-by-any edge R–X overwrites the LOCK_BLOCK_THREAT
assigned when edge A–B was processed, so LOCK_BLOCK_THREAT does not
dominate irrespective of edge evaluation order, contradicting the claimed
(and spec-mandated) invariant. -/
theorem C1_threat_dominance_fails_on_shared_door :
    (∃ e ∈ bugMap.edges, truthyDoor e.doorId = some "D" ∧
      (e.src ∈ ({"B"} : Finset String) ∨ e.dst ∈ ({"B"} : Finset String))) ∧
    (compute_plan bugMap {"B"} ∅).doors.lookup "D" = some .unlock ∧
    (compute_plan bugMap {"B"} ∅).doors.lookup "D" ≠ some .threat := by
  refine ⟨by decide, by decide, by decide⟩

/-- C5: when no edge carrying door id `d` has a hazardous endpoint (and some
edge carries `d`), the plan maps `d` to UNLOCK exactly when `d` appears in
the `path_edges` of at least one EVAC room plan and to LOCK_IDLE when it
appears in none; and on scenario A both rooms are EVAC (R1 via [D1, D2],
R2 via [D2]) with both doors UNLOCK. -/
theorem C5_unthreatened_door_unlock_or_idle (m : BuildingMap)
    (haz locked : Finset String) (d : String)
    (hcar : ∃ e ∈ m.edges, truthyDoor e.doorId = some d)
    (hsafe : ∀ e ∈ m.edges, truthyDoor e.doorId = some d →
      e.src ∉ haz ∧ e.dst ∉ haz) :
    ((∃ r x pe, (r, RoomPlan.evac x pe) ∈ (compute_plan m haz locked).rooms ∧
        d ∈ pe) →
      (compute_plan m haz locked).doors.lookup d = some .unlock) ∧
    (¬ (∃ r x pe, (r, RoomPlan.evac x pe) ∈ (compute_plan m haz locked).rooms ∧
        d ∈ pe) →
      (compute_plan m haz locked).doors.lookup d = some .lockIdle) ∧
    compute_plan scenarioA ∅ ∅ =
      ⟨[("R1", .evac "X" ["D1", "D2"]), ("R2", .evac "X" ["D2"])],
        [("D1", .unlock), ("D2", .unlock)]⟩ := by
  have hfold : (compute_plan m haz locked).doors.lookup d =
      some (if d ∈ usedByAny m haz locked then .unlock else .lockIdle) :=
    doorsFold_spec haz (usedByAny m haz locked) d m.edges [] hsafe
      (Or.inl rfl) (Or.inl hcar)
  refine ⟨?_, ?_, by rfl⟩
  · intro hex
    rw [hfold, if_pos ((mem_usedByAny_iff m haz locked d).mpr hex)]
  · intro hex
    rw [hfold, if_neg fun hu => hex ((mem_usedByAny_iff m haz locked d).mp hu)]

theorem C5_unthreatened_door_unlock_or_idle_witness :
    (∃ e ∈ scenarioA.edges, truthyDoor e.doorId = some "D1") ∧
    (∀ e ∈ scenarioA.edges, truthyDoor e.doorId = some "D1" →
      e.src ∉ (∅ : Finset String) ∧ e.dst ∉ (∅ : Finset String)) ∧
    (((∃ r x pe, (r, RoomPlan.evac x pe) ∈ (compute_plan scenarioA ∅ ∅).rooms ∧
          "D1" ∈ pe) →
        (compute_plan scenarioA ∅ ∅).doors.lookup "D1" = some .unlock) ∧
      (¬ (∃ r x pe,
            (r, RoomPlan.evac x pe) ∈ (compute_plan scenarioA ∅ ∅).rooms ∧
            "D1" ∈ pe) →
        (compute_plan scenarioA ∅ ∅).doors.lookup "D1" = some .lockIdle) ∧
      compute_plan scenarioA ∅ ∅ =
        ⟨[("R1", .evac "X" ["D1", "D2"]), ("R2", .evac "X" ["D2"])],
          [("D1", .unlock), ("D2", .unlock)]⟩) :=
  ⟨by decide, by decide,
    C5_unthreatened_door_unlock_or_idle scenarioA ∅ ∅ "D1" (by decide) (by decide)⟩

/-- C7: the derived adjacency structure is symmetric — every declared edge
contributes its far endpoint to the adjacency list of each of its endpoints,
with the same weight (`e.get("weight", 1)`) and the same edge record,
regardless of the declared direction. -/
theorem C7_adjacency_symmetric (m : BuildingMap) (e : Edge) (he : e ∈ m.edges) :
    (e.dst, e.weight.getD 1, e) ∈ adjOf m.edges e.src ∧
      (e.src, e.weight.getD 1, e) ∈ adjOf m.edges e.dst :=
  ⟨mem_adjOf.mpr ⟨he, rfl, Or.inl ⟨rfl, rfl⟩⟩,
    mem_adjOf.mpr ⟨he, rfl, Or.inr ⟨rfl, rfl⟩⟩⟩

theorem C7_adjacency_symmetric_witness :
    ({ src := "R1", dst := "R2", doorId := some "D1" } : Edge) ∈ scenarioA.edges ∧
    (("R2", 1, ({ src := "R1", dst := "R2", doorId := some "D1" } : Edge)) ∈
        adjOf scenarioA.edges "R1" ∧
      ("R1", 1, ({ src := "R1", dst := "R2", doorId := some "D1" } : Edge)) ∈
        adjOf scenarioA.edges "R2") :=
  ⟨by decide,
    C7_adjacency_symmetric scenarioA
      { src := "R1", dst := "R2", doorId := some "D1" } (by decide)⟩

/-- C8: the computed plan is a function of the building graph, the hazard
set (only its membership — not the order or multiplicity of the update
list), and the locked-door set: two computations from identical inputs
yield identical room-plan and door-state maps. -/
theorem C8_compute_plan_deterministic (m : BuildingMap) (locked : Finset String)
    (l₁ l₂ : List String) (h : l₁.toFinset = l₂.toFinset) :
    compute_plan m (set_hazards (some l₁)) locked =
      compute_plan m (set_hazards (some l₂)) locked := by
  have hs : set_hazards (some l₁) = set_hazards (some l₂) := by
    rw [set_hazards, set_hazards, Option.getD_some, Option.getD_some, h]
  rw [hs]

theorem C8_compute_plan_deterministic_witness :
    (["R2", "R2"] : List String).toFinset = (["R2"] : List String).toFinset ∧
      compute_plan scenarioA (set_hazards (some ["R2", "R2"])) ∅ =
        compute_plan scenarioA (set_hazards (some ["R2"])) ∅ :=
  ⟨by decide, C8_compute_plan_deterministic scenarioA ∅ ["R2", "R2"] ["R2"] (by decide)⟩

theorem adjExtend_refl (am : AdjMap) : AdjExtend am am :=
  ⟨[], by simp, by simp⟩

theorem adjExtend_trans {a b c : AdjMap} (h1 : AdjExtend a b) (h2 : AdjExtend b c) :
    AdjExtend a c := by
  obtain ⟨p1, rfl, hp1⟩ := h1
  obtain ⟨p2, rfl, hp2⟩ := h2
  refine ⟨p1 ++ p2, by rw [List.append_assoc], ?_⟩
  intro pr hpr
  rcases List.mem_append.mp hpr with h | h
  · exact hp1 pr h
  · exact hp2 pr h

theorem adjGet_snd (am : AdjMap) (k : String) : AdjExtend am (adjGet am k).2 := by
  rw [adjGet]
  rcases h : am.lookup k with - | v
  · exact ⟨[(k, [])], rfl, by simp⟩
  · exact adjExtend_refl am

theorem adjGet_fst (am : AdjMap) (k : String) :
    (adjGet am k).1 = (am.lookup k).getD [] := by
  rw [adjGet]
  rcases h : am.lookup k with - | v <;> rfl

theorem adjExtend_lookup {am am₂ : AdjMap} (h : AdjExtend am am₂) :
    ∀ k v, am.lookup k = some v → am₂.lookup k = some v := by
  obtain ⟨pad, rfl, -⟩ := h
  intro k v hk
  rw [List.lookup_append, hk]
  rfl

theorem adjExtend_getD {am am₂ : AdjMap} (h : AdjExtend am am₂) :
    ∀ k, (am₂.lookup k).getD [] = (am.lookup k).getD [] := by
  obtain ⟨pad, rfl, hpad⟩ := h
  intro k
  rw [List.lookup_append]
  rcases hk : am.lookup k with - | v
  · rcases hp : pad.lookup k with - | v₂
    · rfl
    · have : v₂ = [] := by
        obtain ⟨l₁, l₂, heq, -⟩ := List.lookup_eq_some_iff.mp hp
        exact hpad (k, v₂) (heq ▸ List.mem_append.mpr
          (Or.inr (List.mem_cons_self _ _)))
      simp [Option.or, this]
  · rfl

theorem bfsAuxS_adj (st : EngineS) :
    ∀ (fuel : Nat) (q : List (String × List Step)) (vis : List String)
      (am : AdjMap), AdjExtend am (bfsAuxS st fuel q vis am).2 := by
  intro fuel
  induction fuel with
  | zero =>
    intro q vis am
    exact adjExtend_refl am
  | succ fuel ih =>
    intro q vis am
    rcases q with - | ⟨⟨node, path⟩, qt⟩
    · exact adjExtend_refl am
    · by_cases hex : node ∈ st.exits
      · simp only [bfsAuxS, if_pos hex]
        exact adjExtend_refl am
      · simp only [bfsAuxS, if_neg hex]
        exact adjExtend_trans (adjGet_snd am node) (ih _ _ _)

theorem bfsToExitS_adj (st : EngineS) (am : AdjMap) (s : String) :
    AdjExtend am (bfsToExitS st am s).2 := by
  rw [bfsToExitS]
  split_ifs with h
  · exact adjExtend_refl am
  · exact bfsAuxS_adj st _ _ _ am

theorem roomsLoopS_adj (st : EngineS) :
    ∀ (rs : List String) (am : AdjMap),
      AdjExtend am (roomsLoopS st rs am).2.2 := by
  intro rs
  induction rs with
  | nil =>
    intro am
    exact adjExtend_refl am
  | cons r rs ih =>
    intro am
    simp only [roomsLoopS]
    exact adjExtend_trans (bfsToExitS_adj st am r) (ih _)

/-- C9 counterexample: computing a plan for a building with an isolated room
changes the BuildingMap's adjacency mapping — the `defaultdict` read
`self.b.adj[node]` inserts an empty entry for the room, which had none. -/
theorem C9_counterexample_compute_plan_mutates_adj :
    (computePlanS (EngineS.init soloMap)).2.adj ≠ (EngineS.init soloMap).adj := by
  decide

/-- C9 (amended): `bfs_to_exit` and `compute_plan` leave the hazard set, the
locked-door set, and the building's node, edge, exit and room data
unchanged, and change the adjacency mapping only by appending empty entries
for consulted nodes that had none — every key present before keeps its
binding, and the list read for any node (missing keys read as empty) is
unchanged; `set_hazards` replaces the hazard set and changes nothing else. -/
theorem C9_frame_amended (st : EngineS) (s : String) (l : Option (List String)) :
    ((bfsS st s).2.nodes = st.nodes ∧ (bfsS st s).2.edges = st.edges ∧
      (bfsS st s).2.exits = st.exits ∧ (bfsS st s).2.rooms = st.rooms ∧
      (bfsS st s).2.hazards = st.hazards ∧
      (bfsS st s).2.lockedDoors = st.lockedDoors ∧
      AdjExtend st.adj (bfsS st s).2.adj ∧
      (∀ k v, st.adj.lookup k = some v → (bfsS st s).2.adj.lookup k = some v) ∧
      (∀ k, ((bfsS st s).2.adj.lookup k).getD [] = (st.adj.lookup k).getD [])) ∧
    ((computePlanS st).2.nodes = st.nodes ∧ (computePlanS st).2.edges = st.edges ∧
      (computePlanS st).2.exits = st.exits ∧
      (computePlanS st).2.rooms = st.rooms ∧
      (computePlanS st).2.hazards = st.hazards ∧
      (computePlanS st).2.lockedDoors = st.lockedDoors ∧
      AdjExtend st.adj (computePlanS st).2.adj ∧
      (∀ k v, st.adj.lookup k = some v →
        (computePlanS st).2.adj.lookup k = some v) ∧
      (∀ k, ((computePlanS st).2.adj.lookup k).getD [] =
        (st.adj.lookup k).getD [])) ∧
    ((st.setHazards l).nodes = st.nodes ∧ (st.setHazards l).edges = st.edges ∧
      (st.setHazards l).adj = st.adj ∧ (st.setHazards l).exits = st.exits ∧
      (st.setHazards l).rooms = st.rooms ∧
      (st.setHazards l).lockedDoors = st.lockedDoors ∧
      (st.setHazards l).hazards = set_hazards l) := by
  have h1 : AdjExtend st.adj (bfsS st s).2.adj := bfsToExitS_adj st st.adj s
  have h2 : AdjExtend st.adj (computePlanS st).2.adj :=
    roomsLoopS_adj st st.rooms st.adj
  exact ⟨⟨rfl, rfl, rfl, rfl, rfl, rfl, h1, adjExtend_lookup h1, adjExtend_getD h1⟩,
    ⟨rfl, rfl, rfl, rfl, rfl, rfl, h2, adjExtend_lookup h2, adjExtend_getD h2⟩,
    rfl, rfl, rfl, rfl, rfl, rfl, rfl⟩

theorem lookup_map_push (k : String) (v : String × Nat × Edge) :
    ∀ am : AdjMap, (∃ pr ∈ am, pr.1 = k) →
    (((am.map fun p => if p.1 = k then (p.1, p.2 ++ [v]) else p).lookup k).getD []) =
      (am.lookup k).getD [] ++ [v] := by
  intro am
  induction am with
  | nil =>
    rintro ⟨pr, hpr, -⟩
    exact absurd hpr (List.not_mem_nil pr)
  | cons p l ih =>
    rintro ⟨pr, hpr, hk⟩
    obtain ⟨pk, pv⟩ := p
    by_cases hp : pk = k
    · subst hp
      simp [List.lookup_cons]
    · rcases List.mem_cons.mp hpr with rfl | hmem
      · exact absurd hk hp
      · have hba : (k == pk) = false :=
          beq_eq_false_iff_ne.mpr fun hh => hp hh.symm
        simp only [List.map_cons, if_neg hp, List.lookup_cons, hba]
        exact ih ⟨pr, hmem, hk⟩

theorem lookup_map_push_ne (k k₂ : String) (v : String × Nat × Edge)
    (h : k₂ ≠ k) :
    ∀ am : AdjMap,
    ((am.map fun p => if p.1 = k then (p.1, p.2 ++ [v]) else p).lookup k₂) =
      am.lookup k₂ := by
  intro am
  induction am with
  | nil => rfl
  | cons p l ih =>
    obtain ⟨pk, pv⟩ := p
    by_cases hp : pk = k
    · have hba : (k₂ == pk) = false :=
        beq_eq_false_iff_ne.mpr fun hh => h (hh.trans hp)
      simp only [List.map_cons, if_pos hp, List.lookup_cons, hba]
      exact ih
    · simp only [List.map_cons, if_neg hp, List.lookup_cons]
      cases hk : (k₂ == pk) <;> simp [ih]

theorem adjPush_getD (am : AdjMap) (k : String) (v : String × Nat × Edge)
    (k₂ : String) :
    ((adjPush am k v).lookup k₂).getD [] =
      (am.lookup k₂).getD [] ++ (if k = k₂ then [v] else []) := by
  rw [adjPush]
  by_cases h : k = k₂
  · subst h
    rw [if_pos rfl]
    split_ifs with hc
    · obtain ⟨pr, hpr, hbeq⟩ := List.any_eq_true.mp hc
      exact lookup_map_push k v am ⟨pr, hpr, beq_iff_eq.mp hbeq⟩
    · have h0 : am.lookup k = none := by
        rw [List.lookup_eq_none_iff]
        intro p hp
        simp only [bne_iff_ne, ne_eq]
        intro hh
        exact hc (List.any_eq_true.mpr ⟨p, hp, beq_iff_eq.mpr hh.symm⟩)
      rw [List.lookup_append, h0]
      simp [List.lookup_cons]
  · rw [if_neg h]
    split_ifs with hc
    · rw [lookup_map_push_ne k k₂ v (fun hh => h hh.symm) am]
      simp
    · rw [List.lookup_append]
      have hnone : ([(k, [v])] : AdjMap).lookup k₂ = none := by
        simp [List.lookup_cons, beq_eq_false_iff_ne.mpr fun hh => h hh.symm]
      rw [hnone]
      cases am.lookup k₂ <;> simp

theorem adjOf_cons (e : Edge) (es : List Edge) (k : String) :
    adjOf (e :: es) k =
      ((if e.src = k then [(e.dst, e.weight.getD 1, e)] else []) ++
        (if e.dst = k then [(e.src, e.weight.getD 1, e)] else [])) ++
        adjOf es k := by
  simp [adjOf, List.flatMap_cons]

theorem adjInit_fold_getD (k : String) :
    ∀ (es : List Edge) (am : AdjMap),
      ((es.foldl (fun am e =>
          adjPush (adjPush am e.src (e.dst, e.weight.getD 1, e))
            e.dst (e.src, e.weight.getD 1, e)) am).lookup k).getD [] =
        (am.lookup k).getD [] ++ adjOf es k := by
  intro es
  induction es with
  | nil =>
    intro am
    simp [adjOf]
  | cons e es ih =>
    intro am
    rw [List.foldl_cons, ih, adjOf_cons, adjPush_getD, adjPush_getD]
    simp [List.append_assoc]

/-- The adjacency dict built by `BuildingMap.__init__` reads, node by node,
exactly as the pure adjacency view `adjOf`. -/
theorem adjInit_getD (edges : List Edge) (k : String) :
    ((adjInit edges).lookup k).getD [] = adjOf edges k := by
  have h := adjInit_fold_getD k edges []
  simpa [adjInit] using h

theorem bfsAuxS_fst (m : BuildingMap) (st : EngineS)
    (hex : st.exits = m.exits) (hed : st.edges = m.edges) :
    ∀ (fuel : Nat) (q : List (String × List Step)) (vis : List String)
      (am : AdjMap), (∀ k, (am.lookup k).getD [] = adjOf m.edges k) →
      (bfsAuxS st fuel q vis am).1 =
        bfsAux m st.hazards st.lockedDoors fuel q vis := by
  intro fuel
  induction fuel with
  | zero =>
    intro q vis am _
    rfl
  | succ fuel ih =>
    intro q vis am hrep
    rcases q with - | ⟨⟨node, path⟩, qt⟩
    · rfl
    · by_cases hexm : node ∈ m.exits
      · have hin : node ∈ st.exits := hex ▸ hexm
        simp only [bfsAuxS, bfsAux, if_pos hexm, if_pos hin]
      · have hnotin : node ∉ st.exits := fun hh => hexm (hex ▸ hh)
        simp only [bfsAuxS, bfsAux, if_neg hexm, if_neg hnotin]
        have hval : (adjGet am node).1 = adjOf m.edges node := by
          rw [adjGet_fst]
          exact hrep node
        rw [hval]
        have hrep₂ : ∀ k, (((adjGet am node).2).lookup k).getD [] =
            adjOf m.edges k := by
          intro k
          rw [adjExtend_getD (adjGet_snd am node) k]
          exact hrep k
        exact ih _ _ _ hrep₂

theorem bfsToExitS_fst (m : BuildingMap) (st : EngineS)
    (hex : st.exits = m.exits) (hed : st.edges = m.edges)
    (am : AdjMap) (hrep : ∀ k, (am.lookup k).getD [] = adjOf m.edges k)
    (s : String) :
    (bfsToExitS st am s).1 = bfs_to_exit m st.hazards st.lockedDoors s := by
  rw [bfsToExitS, bfs_to_exit]
  split_ifs with h
  · rfl
  · have hf : 4 * st.edges.length + 2 = bfsFuel m := by
      rw [hed, bfsFuel]
    rw [hf]
    exact bfsAuxS_fst m st hex hed _ _ _ _ hrep

theorem roomsLoopS_fst (m : BuildingMap) (st : EngineS)
    (hex : st.exits = m.exits) (hed : st.edges = m.edges) :
    ∀ (rs : List String) (am : AdjMap),
      (∀ k, (am.lookup k).getD [] = adjOf m.edges k) →
      (roomsLoopS st rs am).1 =
        rs.map (fun r => (r, roomPlanOf m st.hazards st.lockedDoors r)) ∧
      (roomsLoopS st rs am).2.1 =
        rs.flatMap (fun r =>
          match bfs_to_exit m st.hazards st.lockedDoors r with
          | none => []
          | some path => pathDoorIds path) := by
  intro rs
  induction rs with
  | nil =>
    intro am _
    exact ⟨rfl, rfl⟩
  | cons r rs ih =>
    intro am hrep
    have hb := bfsToExitS_fst m st hex hed am hrep r
    have hrep₂ : ∀ k, (((bfsToExitS st am r).2).lookup k).getD [] =
        adjOf m.edges k := by
      intro k
      rw [adjExtend_getD (bfsToExitS_adj st am r) k]
      exact hrep k
    obtain ⟨ih1, ih2⟩ := ih (bfsToExitS st am r).2 hrep₂
    constructor
    · simp only [roomsLoopS, List.map_cons]
      rw [ih1, hb, roomPlanOf]
    · simp only [roomsLoopS, List.flatMap_cons]
      rw [ih2, hb]

theorem computePlanS_fst (m : BuildingMap) (st : EngineS)
    (hex : st.exits = m.exits) (hed : st.edges = m.edges)
    (hro : st.rooms = m.rooms)
    (hrep : ∀ k, ((st.adj.lookup k).getD []) = adjOf m.edges k) :
    (computePlanS st).1 = compute_plan m st.hazards st.lockedDoors := by
  obtain ⟨h1, h2⟩ := roomsLoopS_fst m st hex hed st.rooms st.adj hrep
  simp only [computePlanS, compute_plan]
  rw [h1, h2, hro, hed]
  rfl

/-- The method pipeline and the pure model agree: a plan computed on the
freshly constructed engine after a `set_hazards` update is exactly the pure
`compute_plan` on the same building, hazard set and (empty) locked set. -/
theorem engine_agrees_with_pure_model (m : BuildingMap) (l : Option (List String)) :
    (computePlanS ((EngineS.init m).setHazards l)).1 =
      compute_plan m (set_hazards l) ∅ :=
  computePlanS_fst m ((EngineS.init m).setHazards l) rfl rfl rfl
    (adjInit_getD m.edges)

/-!  Lemmas for the grid A*. -/

theorem lookup_mem {κ α : Type} [BEq κ] [LawfulBEq κ] {l : List (κ × α)} {k : κ}
    {v : α} (h : l.lookup k = some v) : (k, v) ∈ l := by
  obtain ⟨l₁, l₂, rfl, -⟩ := List.lookup_eq_some_iff.mp h
  exact List.mem_append.mpr (Or.inr (List.mem_cons_self _ _))

theorem updAssoc_map_self {κ α : Type} [BEq κ] [LawfulBEq κ] [DecidableEq κ]
    (k : κ) (v : α) :
    ∀ l : List (κ × α), (∃ pr ∈ l, pr.1 = k) →
      (l.map fun p => if p.1 = k then (k, v) else p).lookup k = some v := by
  intro l
  induction l with
  | nil =>
    rintro ⟨pr, hpr, -⟩
    exact absurd hpr (List.not_mem_nil pr)
  | cons p l ih =>
    rintro ⟨pr, hpr, hk⟩
    obtain ⟨pk, pv⟩ := p
    by_cases hp : pk = k
    · subst hp
      simp [List.lookup_cons]
    · rcases List.mem_cons.mp hpr with rfl | hmem
      · exact absurd hk hp
      · have hba : (k == pk) = false :=
          beq_eq_false_iff_ne.mpr fun hh => hp hh.symm
        simp only [List.map_cons, if_neg hp, List.lookup_cons, hba]
        exact ih ⟨pr, hmem, hk⟩

theorem updAssoc_map_ne {κ α : Type} [BEq κ] [LawfulBEq κ] [DecidableEq κ]
    (k k₂ : κ) (v : α) (h : k₂ ≠ k) :
    ∀ l : List (κ × α),
      (l.map fun p => if p.1 = k then (k, v) else p).lookup k₂ = l.lookup k₂ := by
  intro l
  induction l with
  | nil => rfl
  | cons p l ih =>
    obtain ⟨pk, pv⟩ := p
    by_cases hp : pk = k
    · have h1 : (k₂ == k) = false := beq_eq_false_iff_ne.mpr h
      have h2 : (k₂ == pk) = false := beq_eq_false_iff_ne.mpr (hp ▸ h)
      simp only [List.map_cons, if_pos hp, List.lookup_cons, h1, h2]
      exact ih
    · simp only [List.map_cons, if_neg hp, List.lookup_cons]
      cases hk : (k₂ == pk) <;> simp [ih]

theorem updAssoc_lookup_self {κ α : Type} [BEq κ] [LawfulBEq κ] [DecidableEq κ]
    (l : List (κ × α)) (k : κ) (v : α) : (updAssoc l k v).lookup k = some v := by
  rw [updAssoc]
  split_ifs with hc
  · obtain ⟨pr, hpr, hbeq⟩ := List.any_eq_true.mp hc
    exact updAssoc_map_self k v l ⟨pr, hpr, of_decide_eq_true hbeq⟩
  · have h0 : l.lookup k = none := by
      rw [List.lookup_eq_none_iff]
      intro p hp
      simp only [bne_iff_ne, ne_eq]
      intro hh
      exact hc (List.any_eq_true.mpr ⟨p, hp, decide_eq_true hh.symm⟩)
    rw [List.lookup_append, h0]
    simp [List.lookup_cons]

theorem updAssoc_lookup_ne {κ α : Type} [BEq κ] [LawfulBEq κ] [DecidableEq κ]
    (l : List (κ × α)) (k k₂ : κ) (v : α) (h : k₂ ≠ k) :
    (updAssoc l k v).lookup k₂ = l.lookup k₂ := by
  rw [updAssoc]
  split_ifs with hc
  · exact updAssoc_map_ne k k₂ v h l
  · rw [List.lookup_append]
    have hnone : ([(k, v)] : List (κ × α)).lookup k₂ = none := by
      simp [List.lookup_cons, beq_eq_false_iff_ne.mpr h]
    rw [hnone]
    cases l.lookup k₂ <;> rfl

theorem updAssoc_mem {κ α : Type} [DecidableEq κ] {l : List (κ × α)} {k : κ}
    {v : α} : ∀ pr ∈ updAssoc l k v, pr ∈ l ∨ pr = (k, v) := by
  intro pr hpr
  rw [updAssoc] at hpr
  split_ifs at hpr with hc
  · rcases List.mem_map.mp hpr with ⟨p, hp, hval⟩
    by_cases hpk : p.1 = k
    · rw [if_pos hpk] at hval
      exact Or.inr hval.symm
    · rw [if_neg hpk] at hval
      exact Or.inl (hval ▸ hp)
  · rcases List.mem_append.mp hpr with hmem | hmem
    · exact Or.inl hmem
    · simp only [List.mem_singleton] at hmem
      exact Or.inr hmem

theorem updAssoc_keys {κ α : Type} [DecidableEq κ] (l : List (κ × α)) (k : κ)
    (v : α) :
    ((updAssoc l k v).map Prod.fst = l.map Prod.fst ∧
      (updAssoc l k v).length = l.length) ∨
    ((updAssoc l k v).map Prod.fst = l.map Prod.fst ++ [k] ∧
      (updAssoc l k v).length = l.length + 1 ∧ k ∉ l.map Prod.fst) := by
  rw [updAssoc]
  split_ifs with hc
  · left
    constructor
    · rw [List.map_map]
      refine List.map_congr_left ?_
      intro p _
      by_cases hpk : p.1 = k
      · simp [hpk]
      · simp [hpk]
    · rw [List.length_map]
  · right
    refine ⟨by simp, by simp, ?_⟩
    intro hmem
    rcases List.mem_map.mp hmem with ⟨p, hp, hval⟩
    apply hc
    refine List.any_eq_true.mpr ⟨p, hp, ?_⟩
    exact beq_iff_eq.mpr hval

theorem gridPath_ne_nil {g : Grid} {start goal : Cell} {p : List Cell}
    (h : GridPath g start goal p) : p ≠ [] := by
  intro hnil
  rw [hnil] at h
  exact Option.noConfusion h.1

theorem wcell_eq_getElem {p : List Cell} {i : Nat} (h : i < p.length) :
    wcell p i = p[i] := by
  rw [wcell, List.getD_eq_getElem?_getD, List.getElem?_eq_getElem h]
  rfl

theorem gridPath_wcell_zero {g : Grid} {start goal : Cell} {p : List Cell}
    (h : GridPath g start goal p) : wcell p 0 = start := by
  have h0 : 0 < p.length := List.length_pos.mpr (gridPath_ne_nil h)
  have h1 := h.1
  rw [List.head?_eq_getElem?, List.getElem?_eq_getElem h0, Option.some.injEq] at h1
  rw [wcell_eq_getElem h0, h1]

theorem gridPath_wcell_last {g : Grid} {start goal : Cell} {p : List Cell}
    (h : GridPath g start goal p) : wcell p (p.length - 1) = goal := by
  have hne := gridPath_ne_nil h
  have hlt : p.length - 1 < p.length := by
    have : 0 < p.length := List.length_pos.mpr hne
    omega
  have h2 := h.2.1
  rw [List.getLast?_eq_getElem?, List.getElem?_eq_getElem hlt,
    Option.some.injEq] at h2
  rw [wcell_eq_getElem hlt, h2]

theorem gridPath_step {g : Grid} {start goal : Cell} {p : List Cell}
    (h : GridPath g start goal p) {i : Nat} (hi : i + 1 < p.length) :
    Step4 (wcell p i) (wcell p (i + 1)) := by
  have hc := List.chain'_iff_get.mp h.2.2.1 i (by omega)
  rw [List.get_eq_getElem, List.get_eq_getElem] at hc
  rwa [wcell_eq_getElem (by omega : i < p.length), wcell_eq_getElem hi]

theorem gridPath_free {g : Grid} {start goal : Cell} {p : List Cell}
    (h : GridPath g start goal p) {i : Nat} (hi : i < p.length) :
    FreeCell g (wcell p i) := by
  rw [wcell_eq_getElem hi]
  exact h.2.2.2 _ (List.getElem_mem hi)

theorem gridPath_drop {g : Grid} {start goal : Cell} {p : List Cell}
    (h : GridPath g start goal p) {i : Nat} (hi : i < p.length) :
    GridPath g (wcell p i) goal (p.drop i) := by
  refine ⟨?_, ?_, ?_, ?_⟩
  · rw [List.head?_drop, wcell_eq_getElem hi, List.getElem?_eq_getElem hi]
  · rw [List.getLast?_eq_getElem?, List.length_drop, List.getElem?_drop]
    have h2 := h.2.1
    rw [List.getLast?_eq_getElem?] at h2
    have he : i + (p.length - i - 1) = p.length - 1 := by omega
    rw [he]
    exact h2
  · rw [List.chain'_iff_get]
    intro j hj
    rw [List.length_drop] at hj
    have hs := gridPath_step h (i := i + j) (by omega)
    rw [List.get_eq_getElem, List.get_eq_getElem, List.getElem_drop,
      List.getElem_drop]
    rw [wcell_eq_getElem (by omega : i + j < p.length),
      wcell_eq_getElem (by omega : i + j + 1 < p.length)] at hs
    exact hs
  · intro c hc
    exact h.2.2.2 c (List.mem_of_mem_drop hc)

theorem gridPath_append {g : Grid} {start c c₂ : Cell} {q : List Cell}
    (h : GridPath g start c q) (hs : Step4 c c₂) (hf : FreeCell g c₂) :
    GridPath g start c₂ (q ++ [c₂]) := by
  refine ⟨?_, List.getLast?_concat q, ?_, ?_⟩
  · rw [List.head?_append, h.1]
    rfl
  · rw [List.chain'_append]
    refine ⟨h.2.2.1, List.chain'_singleton c₂, ?_⟩
    intro x hx y hy
    rw [h.2.1] at hx
    rw [List.head?_cons] at hy
    simp only [Option.mem_def, Option.some.injEq] at hx hy
    subst hx
    subst hy
    exact hs
  · intro x hx
    rcases List.mem_append.mp hx with hx | hx
    · exact h.2.2.2 x hx
    · simp only [List.mem_singleton] at hx
      subst hx
      exact hf

theorem gridPath_manhattan {g : Grid} :
    ∀ (p : List Cell) (a b : Cell), GridPath g a b p →
      (b.1 - a.1).natAbs + (b.2 - a.2).natAbs + 1 ≤ p.length := by
  intro p
  induction p with
  | nil =>
    intro a b h
    exact absurd rfl (gridPath_ne_nil h)
  | cons c rest ih =>
    intro a b h
    have hca : c = a := by
      have := h.1
      simp only [List.head?_cons, Option.some.injEq] at this
      exact this
    subst hca
    rcases rest with - | ⟨c₂, rest₂⟩
    · have hb : c = b := by
        have := h.2.1
        simp only [List.getLast?_singleton, Option.some.injEq] at this
        exact this
      subst hb
      simp
    · have htail : GridPath g c₂ b (c₂ :: rest₂) := by
        refine ⟨rfl, ?_, ?_, ?_⟩
        · have := h.2.1
          rwa [List.getLast?_cons_cons] at this
        · exact (List.chain'_cons.mp h.2.2.1).2
        · intro x hx
          exact h.2.2.2 x (List.mem_cons_of_mem _ hx)
      have hstep : Step4 c c₂ := (List.chain'_cons.mp h.2.2.1).1
      have hih := ih c₂ b htail
      obtain ⟨d, hd, hdc⟩ := hstep
      simp only [moves, List.mem_cons, List.not_mem_nil, or_false] at hd
      have hc1 : c₂.1 = c.1 + d.1 := by rw [hdc]
      have hc2 : c₂.2 = c.2 + d.2 := by rw [hdc]
      rcases hd with rfl | rfl | rfl | rfl <;>
        (simp only at hc1 hc2; simp only [List.length_cons] at hih ⊢; omega)

theorem entLeB_le {a b : ℚ × Cell} (h : entLeB a b = true) : a.1 ≤ b.1 := by
  rw [entLeB] at h
  simp only [Bool.or_eq_true, Bool.and_eq_true, decide_eq_true_eq] at h
  rcases h with h | ⟨h, -⟩
  · exact le_of_lt h
  · exact le_of_eq h

theorem entLeB_ge {a b : ℚ × Cell} (h : ¬ entLeB a b = true) : b.1 ≤ a.1 := by
  rw [entLeB] at h
  simp only [Bool.or_eq_true, Bool.and_eq_true, decide_eq_true_eq, not_or,
    not_and] at h
  exact le_of_not_lt h.1

theorem popMin_cons_cons (en en₂ : ℚ × Cell) (rest₂ : List (ℚ × Cell)) :
    popMin (en :: en₂ :: rest₂) =
      if entLeB en (popMin (en₂ :: rest₂)).1 then (en, en₂ :: rest₂)
      else ((popMin (en₂ :: rest₂)).1, en :: (popMin (en₂ :: rest₂)).2) := rfl

theorem popMin_spec : SelSpec popMin := by
  intro l hne
  induction l with
  | nil => exact absurd rfl hne
  | cons en rest ih =>
    rcases rest with - | ⟨en₂, rest₂⟩
    · refine ⟨List.mem_cons_self _ _, List.Perm.refl _, ?_⟩
      intro e he
      rcases List.mem_cons.mp he with rfl | h
      · exact le_refl _
      · exact absurd h (List.not_mem_nil e)
    · obtain ⟨ihmem, ihperm, ihmin⟩ := ih (List.cons_ne_nil en₂ rest₂)
      rw [popMin_cons_cons]
      by_cases hle : entLeB en (popMin (en₂ :: rest₂)).1
      · rw [if_pos hle]
        refine ⟨List.mem_cons_self _ _, List.Perm.refl _, ?_⟩
        intro e he
        rcases List.mem_cons.mp he with rfl | hmem
        · exact le_refl _
        · exact le_trans (entLeB_le hle) (ihmin e hmem)
      · rw [if_neg hle]
        refine ⟨List.mem_cons_of_mem _ ihmem, ?_, ?_⟩
        · exact (List.Perm.cons en ihperm).trans (List.Perm.swap _ _ _)
        · intro e he
          rcases List.mem_cons.mp he with rfl | hmem
          · exact entLeB_ge hle
          · exact ihmin e hmem

theorem updAssoc_eq_append {κ α : Type} [BEq κ] [LawfulBEq κ] [DecidableEq κ]
    {l : List (κ × α)} {k : κ} (hn : l.lookup k = none) (v : α) :
    updAssoc l k v = l ++ [(k, v)] := by
  rw [updAssoc, if_neg]
  intro hc
  obtain ⟨pr, hpr, hbeq⟩ := List.any_eq_true.mp hc
  rw [List.lookup_eq_none_iff] at hn
  have h1 : k ≠ pr.1 := by simpa using hn pr hpr
  exact h1 (of_decide_eq_true hbeq).symm

theorem updAssoc_length_of_some {κ α : Type} [BEq κ] [LawfulBEq κ] [DecidableEq κ]
    {l : List (κ × α)} {k : κ} {v₀ : α} (hs : l.lookup k = some v₀) (v : α) :
    (updAssoc l k v).length = l.length ∧
      (updAssoc l k v).map Prod.fst = l.map Prod.fst := by
  rcases updAssoc_keys l k v with ⟨h1, h2⟩ | ⟨h1, h2, h3⟩
  · exact ⟨h2, h1⟩
  · exact absurd (List.mem_map.mpr ⟨(k, v₀), lookup_mem hs, rfl⟩) h3

theorem mem_gridCells {g : Grid} {c : Cell} : c ∈ gridCells g ↔ g.inBounds c := by
  rw [gridCells]
  simp only [Finset.mem_image, Finset.mem_product, Finset.mem_range, Prod.exists]
  constructor
  · rintro ⟨a, b, ⟨ha, hb⟩, rfl⟩
    simp only [Grid.inBounds]
    omega
  · rintro ⟨h1, h2, h3, h4⟩
    refine ⟨c.1.toNat, c.2.toNat, ⟨by omega, by omega⟩, ?_⟩
    rw [Int.toNat_of_nonneg h1, Int.toNat_of_nonneg h3]

theorem card_gridCells (g : Grid) : (gridCells g).card ≤ g.H * g.W := by
  calc (gridCells g).card ≤ (Finset.range g.H ×ˢ Finset.range g.W).card :=
        Finset.card_image_le
    _ = g.H * g.W := by rw [Finset.card_product, Finset.card_range, Finset.card_range]

theorem keys_length_le (g : Grid) (keys : List Cell) (hnd : keys.Nodup)
    (hsub : ∀ c ∈ keys, g.inBounds c) : keys.length ≤ g.H * g.W := by
  have h1 : keys.toFinset.card = keys.length := List.toFinset_card_of_nodup hnd
  have h2 : keys.toFinset ⊆ gridCells g := by
    intro c hc
    exact mem_gridCells.mpr (hsub c (List.mem_toFinset.mp hc))
  calc keys.length = keys.toFinset.card := h1.symm
    _ ≤ (gridCells g).card := Finset.card_le_card h2
    _ ≤ g.H * g.W := card_gridCells g

theorem gsc_length_le (g : Grid) {gsc : List (Cell × Nat)}
    (hnd : (gsc.map Prod.fst).Nodup) (hfree : ∀ pr ∈ gsc, FreeCell g pr.1) :
    gsc.length ≤ g.H * g.W := by
  have := keys_length_le g (gsc.map Prod.fst) hnd ?_
  · rwa [List.length_map] at this
  · intro c hc
    rcases List.mem_map.mp hc with ⟨pr, hpr, rfl⟩
    exact (hfree pr hpr).1

theorem gsc_length_lt (g : Grid) {gsc : List (Cell × Nat)} {n : Cell}
    (hnd : (gsc.map Prod.fst).Nodup) (hfree : ∀ pr ∈ gsc, FreeCell g pr.1)
    (hn : gsc.lookup n = none) (hnf : FreeCell g n) :
    gsc.length + 1 ≤ g.H * g.W := by
  have hnot : n ∉ gsc.map Prod.fst := by
    intro hmem
    rcases List.mem_map.mp hmem with ⟨pr, hpr, hval⟩
    rw [List.lookup_eq_none_iff] at hn
    have := hn pr hpr
    simp only [bne_iff_ne, ne_eq] at this
    exact this hval.symm
  have := keys_length_le g (n :: gsc.map Prod.fst)
    (List.nodup_cons.mpr ⟨hnot, hnd⟩) ?_
  · simp only [List.length_cons, List.length_map] at this
    omega
  · intro c hc
    rcases List.mem_cons.mp hc with rfl | hc
    · exact hnf.1
    · rcases List.mem_map.mp hc with ⟨pr, hpr, rfl⟩
      exact (hfree pr hpr).1

theorem potSum_update (g : Grid) (gsc : List (Cell × Nat)) (n : Cell)
    (hn : n ∈ gridCells g) (v : Nat) (hlt : v < potOf g gsc n) :
    potSum g (updAssoc gsc n v) + 1 ≤ potSum g gsc := by
  have hn₂ : potOf g (updAssoc gsc n v) n = v := by
    rw [potOf, updAssoc_lookup_self]
  have hsame : ∀ c ∈ (gridCells g).erase n,
      potOf g (updAssoc gsc n v) c = potOf g gsc c := by
    intro c hc
    rw [potOf, potOf, updAssoc_lookup_ne gsc n c v (Finset.ne_of_mem_erase hc)]
  have h1 : potSum g (updAssoc gsc n v) =
      potOf g (updAssoc gsc n v) n + ((gridCells g).erase n).sum (potOf g gsc) := by
    rw [potSum, ← Finset.add_sum_erase _ _ hn]
    exact congrArg _ (Finset.sum_congr rfl hsame)
  have h2 : potSum g gsc =
      potOf g gsc n + ((gridCells g).erase n).sum (potOf g gsc) := by
    rw [potSum, ← Finset.add_sum_erase _ _ hn]
  rw [h1, h2, hn₂]
  omega

theorem relax_cases (g : Grid) (h : Cell → ℚ) (current : Cell) (st : AState)
    (d : Cell) :
    (relax g h current st d = st ∧
      (¬ FreeCell g (current.1 + d.1, current.2 + d.2) ∨
        ∃ v, st.gsc.lookup (current.1 + d.1, current.2 + d.2) = some v ∧
          v ≤ (st.gsc.lookup current).getD 0 + 1)) ∨
    (FreeCell g (current.1 + d.1, current.2 + d.2) ∧
      (st.gsc.lookup (current.1 + d.1, current.2 + d.2) = none ∨
        ∃ v, st.gsc.lookup (current.1 + d.1, current.2 + d.2) = some v ∧
          (st.gsc.lookup current).getD 0 + 1 < v) ∧
      relax g h current st d =
        { heap := st.heap ++
            [(((((st.gsc.lookup current).getD 0 + 1 : ℕ) : ℚ)) +
              h (current.1 + d.1, current.2 + d.2),
              (current.1 + d.1, current.2 + d.2))],
          gsc := updAssoc st.gsc (current.1 + d.1, current.2 + d.2)
            ((st.gsc.lookup current).getD 0 + 1),
          cameFrom := updAssoc st.cameFrom (current.1 + d.1, current.2 + d.2)
            current }) := by
  by_cases hb : g.inBounds (current.1 + d.1, current.2 + d.2)
  · by_cases hbl : g.blocked (current.1 + d.1) (current.2 + d.2)
    · left
      refine ⟨?_, Or.inl ?_⟩
      · rw [relax, if_pos hb, if_pos hbl]
      · rintro ⟨-, hfr⟩
        rw [hfr] at hbl
        exact Bool.noConfusion hbl
    · have hfree : FreeCell g (current.1 + d.1, current.2 + d.2) :=
        ⟨hb, by revert hbl; cases g.blocked (current.1 + d.1) (current.2 + d.2) <;> simp⟩
      rcases hlook : st.gsc.lookup (current.1 + d.1, current.2 + d.2) with - | v
      · right
        refine ⟨hfree, Or.inl rfl, ?_⟩
        rw [relax, if_pos hb, if_neg (by simp [hbl]), hlook]
        rfl
      · by_cases himp : (st.gsc.lookup current).getD 0 + 1 < v
        · right
          refine ⟨hfree, Or.inr ⟨v, rfl, himp⟩, ?_⟩
          rw [relax, if_pos hb, if_neg (by simp [hbl]), hlook]
          simp [himp]
        · left
          refine ⟨?_, Or.inr ⟨v, rfl, by omega⟩⟩
          rw [relax, if_pos hb, if_neg (by simp [hbl]), hlook]
          simp [himp]
  · left
    refine ⟨by rw [relax, if_neg hb], Or.inl ?_⟩
    rintro ⟨hib, -⟩
    exact hb hib

theorem relax_ne_of_mem_moves {current d : Cell} (hd : d ∈ moves) :
    ((current.1 + d.1, current.2 + d.2) : Cell) ≠ current := by
  intro hcon
  have h1 : current.1 + d.1 = current.1 := congrArg Prod.fst hcon
  have h2 : current.2 + d.2 = current.2 := congrArg Prod.snd hcon
  have hd1 : d.1 = 0 := by omega
  have hd2 : d.2 = 0 := by omega
  simp only [moves, List.mem_cons, List.not_mem_nil, or_false] at hd
  rcases hd with rfl | rfl | rfl | rfl <;> simp at hd1 hd2

theorem relax_heap (g : Grid) (h : Cell → ℚ) (current : Cell) (st : AState)
    (d : Cell) : ∃ tl, (relax g h current st d).heap = st.heap ++ tl := by
  rcases relax_cases g h current st d with ⟨heq, -⟩ | ⟨-, -, heq⟩
  · exact ⟨[], by rw [heq, List.append_nil]⟩
  · rw [heq]
    exact ⟨_, rfl⟩

theorem relax_gsc_mono (g : Grid) (h : Cell → ℚ) (current : Cell) (st : AState)
    (d : Cell) : ∀ c v, st.gsc.lookup c = some v →
      ∃ v₂, (relax g h current st d).gsc.lookup c = some v₂ ∧ v₂ ≤ v := by
  intro c v hv
  rcases relax_cases g h current st d with ⟨heq, -⟩ | ⟨-, himp, heq⟩
  · exact ⟨v, by rw [heq]; exact hv, le_refl v⟩
  · rw [heq]
    by_cases hcn : c = (current.1 + d.1, current.2 + d.2)
    · subst hcn
      refine ⟨(st.gsc.lookup current).getD 0 + 1, updAssoc_lookup_self .., ?_⟩
      rcases himp with hl | ⟨v₂, hl, hlt⟩
      · rw [hv] at hl
        exact Option.noConfusion hl
      · rw [hv] at hl
        have : v₂ = v := Option.some.inj hl.symm
        omega
    · exact ⟨v, by rw [updAssoc_lookup_ne _ _ _ _ hcn]; exact hv, le_refl v⟩

theorem relax_newGood (g : Grid) (h : Cell → ℚ) (current : Cell) (st : AState)
    (d : Cell) : ∀ c v₂, (relax g h current st d).gsc.lookup c = some v₂ →
      st.gsc.lookup c = some v₂ ∨
        ((v₂ : ℚ) + h c, c) ∈ (relax g h current st d).heap := by
  intro c v₂ hv
  rcases relax_cases g h current st d with ⟨heq, -⟩ | ⟨-, -, heq⟩
  · rw [heq] at hv
    exact Or.inl hv
  · by_cases hcn : c = (current.1 + d.1, current.2 + d.2)
    · subst hcn
      rw [heq] at hv
      rw [updAssoc_lookup_self] at hv
      have hv₂ : v₂ = (st.gsc.lookup current).getD 0 + 1 :=
        (Option.some.inj hv).symm
      right
      rw [heq, hv₂]
      exact List.mem_append.mpr (Or.inr (List.mem_singleton_self _))
    · rw [heq] at hv
      rw [updAssoc_lookup_ne _ _ _ _ hcn] at hv
      exact Or.inl hv

theorem relax_current (g : Grid) (h : Cell → ℚ) (current : Cell) (st : AState)
    (d : Cell) (hd : d ∈ moves) :
    (relax g h current st d).gsc.lookup current = st.gsc.lookup current := by
  rcases relax_cases g h current st d with ⟨heq, -⟩ | ⟨-, -, heq⟩
  · rw [heq]
  · rw [heq]
    exact updAssoc_lookup_ne _ _ _ _ fun hh => relax_ne_of_mem_moves hd hh.symm

theorem relax_neighbor (g : Grid) (h : Cell → ℚ) (current : Cell) (st : AState)
    (d : Cell) {gc : Nat} (hgc : st.gsc.lookup current = some gc) :
    FreeCell g (current.1 + d.1, current.2 + d.2) →
    ∃ v, v ≤ gc + 1 ∧
      (relax g h current st d).gsc.lookup (current.1 + d.1, current.2 + d.2) =
        some v := by
  intro hfree
  have hgd : (st.gsc.lookup current).getD 0 = gc := by rw [hgc]; rfl
  rcases relax_cases g h current st d with ⟨heq, hwhy⟩ | ⟨-, -, heq⟩
  · rcases hwhy with hnf | ⟨v, hl, hle⟩
    · exact absurd hfree hnf
    · rw [hgd] at hle
      exact ⟨v, hle, by rw [heq]; exact hl⟩
  · refine ⟨(st.gsc.lookup current).getD 0 + 1, by omega, ?_⟩
    rw [heq]
    exact updAssoc_lookup_self ..

theorem relax_inv (g : Grid) (start : Cell) (h : Cell → ℚ) (current : Cell)
    (st : AState) (d : Cell) (hd : d ∈ moves) (hinv : AInv g start h st)
    {gc : Nat} (hgc : st.gsc.lookup current = some gc) :
    AInv g start h (relax g h current st d) := by
  rcases relax_cases g h current st d with ⟨heq, -⟩ | ⟨hfree, himp, heq⟩
  · rw [heq]
    exact hinv
  · have hgd : (st.gsc.lookup current).getD 0 = gc := by rw [hgc]; rfl
    have hne : ((current.1 + d.1, current.2 + d.2) : Cell) ≠ current :=
      relax_ne_of_mem_moves hd
    have hnstart : ((current.1 + d.1, current.2 + d.2) : Cell) ≠ start := by
      intro hcon
      rcases himp with hl | ⟨v, hl, hv⟩
      · rw [hcon, hinv.g_start] at hl
        exact Option.noConfusion hl
      · rw [hcon, hinv.g_start] at hl
        have hv0 : v = 0 := (Option.some.inj hl).symm
        omega
    have hcb : gc + 1 ≤ st.gsc.length :=
      hinv.count_bound (current, gc) (lookup_mem hgc)
    rw [heq]
    constructor
    · -- keys nodup
      rcases updAssoc_keys st.gsc (current.1 + d.1, current.2 + d.2)
          ((st.gsc.lookup current).getD 0 + 1) with ⟨h1, -⟩ | ⟨h1, -, h3⟩
      · rw [h1]
        exact hinv.keys_nodup
      · rw [h1]
        refine List.Nodup.append hinv.keys_nodup (List.nodup_singleton _) ?_
        intro a ha hmem
        simp only [List.mem_singleton] at hmem
        subst hmem
        exact h3 ha
    · -- keys free
      intro pr hpr
      rcases updAssoc_mem pr hpr with hmem | rfl
      · exact hinv.keys_free pr hmem
      · exact hfree
    · -- count bound
      intro pr hpr
      rcases himp with hl | ⟨v, hl, hv⟩
      · rw [updAssoc_eq_append hl] at hpr ⊢
        rw [List.length_append, List.length_singleton]
        rcases List.mem_append.mp hpr with hmem | hmem
        · have := hinv.count_bound pr hmem
          omega
        · simp only [List.mem_singleton] at hmem
          subst hmem
          simp only [hgd]
          omega
      · obtain ⟨hlen, -⟩ := updAssoc_length_of_some hl
          ((st.gsc.lookup current).getD 0 + 1)
        rw [hlen]
        rcases updAssoc_mem pr hpr with hmem | rfl
        · exact hinv.count_bound pr hmem
        · have hvb := hinv.count_bound _ (lookup_mem hl)
          simp only [hgd] at hv ⊢
          omega
    · -- heap_dom
      intro en hen
      rcases List.mem_append.mp hen with hmem | hmem
      · obtain ⟨v, hv, hor⟩ := hinv.heap_dom en hmem
        by_cases hcn : en.2 = (current.1 + d.1, current.2 + d.2)
        · refine ⟨(st.gsc.lookup current).getD 0 + 1, by rw [hcn]; exact updAssoc_lookup_self .., ?_⟩
          rcases himp with hl | ⟨v₂, hl, hlt⟩
          · rw [hcn, hl] at hv
            exact Option.noConfusion hv
          · rw [hcn, hl] at hv
            have hvv : v = v₂ := (Option.some.inj hv).symm
            rcases hor with hor | ⟨h0, hv0⟩
            · left
              have hc1 : (((st.gsc.lookup current).getD 0 + 1 : ℕ) : ℚ) ≤ (v : ℚ) := by
                exact_mod_cast le_of_lt (hvv ▸ hlt)
              calc (((st.gsc.lookup current).getD 0 + 1 : ℕ) : ℚ) + h en.2
                  ≤ (v : ℚ) + h en.2 := by linarith
                _ ≤ en.1 := hor
            · exfalso
              rw [hv0] at hvv
              omega
        · exact ⟨v, by rw [updAssoc_lookup_ne _ _ _ _ hcn]; exact hv, hor⟩
      · simp only [List.mem_singleton] at hmem
        subst hmem
        exact ⟨(st.gsc.lookup current).getD 0 + 1, updAssoc_lookup_self .., Or.inl (le_refl _)⟩
    · -- g_start
      rw [updAssoc_lookup_ne _ _ _ _ fun hh => hnstart hh.symm]
      exact hinv.g_start
    · -- cf_start
      rw [updAssoc_lookup_ne _ _ _ _ fun hh => hnstart hh.symm]
      exact hinv.cf_start
    · -- cf_spec
      intro c p₂ hcp
      by_cases hcn : c = (current.1 + d.1, current.2 + d.2)
      · subst hcn
        rw [updAssoc_lookup_self] at hcp
        have hp₂ : p₂ = current := (Option.some.inj hcp).symm
        refine ⟨(st.gsc.lookup current).getD 0 + 1, gc,
          updAssoc_lookup_self .., ?_, by omega, ?_⟩
        · rw [hp₂, updAssoc_lookup_ne _ _ _ _ fun hh => hne hh.symm]
          exact hgc
        · rw [hp₂]
          exact ⟨d, hd, rfl⟩
      · rw [updAssoc_lookup_ne _ _ _ _ hcn] at hcp
        obtain ⟨vc, vp, hvc, hvp, hle, hstep⟩ := hinv.cf_spec c p₂ hcp
        refine ⟨vc, ?_⟩
        rw [updAssoc_lookup_ne _ _ _ _ hcn]
        by_cases hpn : p₂ = (current.1 + d.1, current.2 + d.2)
        · refine ⟨(st.gsc.lookup current).getD 0 + 1, hvc, ?_, ?_, hstep⟩
          · rw [hpn]
            exact updAssoc_lookup_self ..
          · rcases himp with hl | ⟨v, hl, hlt⟩
            · rw [hpn, hl] at hvp
              exact Option.noConfusion hvp
            · rw [hpn, hl] at hvp
              have : vp = v := (Option.some.inj hvp).symm
              omega
        · exact ⟨vp, hvc, by rw [updAssoc_lookup_ne _ _ _ _ hpn]; exact hvp,
            hle, hstep⟩
    · -- gdom_cf
      intro c v hcv
      by_cases hcn : c = (current.1 + d.1, current.2 + d.2)
      · right
        rw [hcn, updAssoc_lookup_self]
        rfl
      · rw [updAssoc_lookup_ne _ _ _ _ hcn] at hcv
        rcases hinv.gdom_cf c v hcv with hcs | hsome
        · exact Or.inl hcs
        · right
          rw [updAssoc_lookup_ne _ _ _ _ hcn]
          exact hsome

theorem relax_phi (g : Grid) (start : Cell) (h : Cell → ℚ) (current : Cell)
    (st : AState) (d : Cell) (hinv : AInv g start h st)
    {gc : Nat} (hgc : st.gsc.lookup current = some gc) :
    aPhi g (relax g h current st d) ≤ aPhi g st := by
  rcases relax_cases g h current st d with ⟨heq, -⟩ | ⟨hfree, himp, heq⟩
  · rw [heq]
  · have hgd : (st.gsc.lookup current).getD 0 = gc := by rw [hgc]; rfl
    have hnB : ((current.1 + d.1, current.2 + d.2) : Cell) ∈ gridCells g :=
      mem_gridCells.mpr hfree.1
    have hcb : gc + 1 ≤ st.gsc.length :=
      hinv.count_bound (current, gc) (lookup_mem hgc)
    have hpot : (st.gsc.lookup current).getD 0 + 1 <
        potOf g st.gsc (current.1 + d.1, current.2 + d.2) := by
      rcases himp with hl | ⟨v, hl, hv⟩
      · have he : potOf g st.gsc (current.1 + d.1, current.2 + d.2) = g.H * g.W := by
          rw [potOf, hl]
        rw [he, hgd]
        have := gsc_length_lt g hinv.keys_nodup hinv.keys_free hl hfree
        omega
      · have he : potOf g st.gsc (current.1 + d.1, current.2 + d.2) = v := by
          rw [potOf, hl]
        rw [he]
        exact hv
    have hsum := potSum_update g st.gsc (current.1 + d.1, current.2 + d.2) hnB
      ((st.gsc.lookup current).getD 0 + 1) hpot
    rw [heq, aPhi, aPhi]
    simp only [List.length_append, List.length_singleton]
    omega

theorem foldRelax_mono (g : Grid) (h : Cell → ℚ) (current : Cell) :
    ∀ (l : List Cell) (st : AState) (c : Cell) (v : Nat),
      st.gsc.lookup c = some v →
      ∃ v', (l.foldl (relax g h current) st).gsc.lookup c = some v' ∧ v' ≤ v := by
  intro l
  induction l with
  | nil => exact fun st c v hv => ⟨v, hv, le_refl v⟩
  | cons d l ih =>
    intro st c v hv
    obtain ⟨v₁, hv₁, hle₁⟩ := relax_gsc_mono g h current st d c v hv
    obtain ⟨v₂, hv₂, hle₂⟩ := ih (relax g h current st d) c v₁ hv₁
    exact ⟨v₂, hv₂, le_trans hle₂ hle₁⟩

theorem foldRelax_facts (g : Grid) (start : Cell) (h : Cell → ℚ) (current : Cell)
    {gc : Nat} :
    ∀ (l : List Cell) (st : AState), (∀ d ∈ l, d ∈ moves) →
      AInv g start h st → st.gsc.lookup current = some gc →
      AInv g start h (l.foldl (relax g h current) st) ∧
      (∃ tl, (l.foldl (relax g h current) st).heap = st.heap ++ tl) ∧
      (∀ c v', (l.foldl (relax g h current) st).gsc.lookup c = some v' →
        st.gsc.lookup c = some v' ∨
          ((v' : ℚ) + h c, c) ∈ (l.foldl (relax g h current) st).heap) ∧
      (l.foldl (relax g h current) st).gsc.lookup current =
        st.gsc.lookup current ∧
      aPhi g (l.foldl (relax g h current) st) ≤ aPhi g st := by
  intro l
  induction l with
  | nil =>
    intro st _ hinv _
    exact ⟨hinv, ⟨[], (List.append_nil _).symm⟩,
      fun c v' hv => Or.inl hv, rfl, le_refl _⟩
  | cons d l ih =>
    intro st hsub hinv hgc
    simp only [List.foldl_cons]
    have hd : d ∈ moves := hsub d (List.mem_cons_self _ _)
    have hinv₁ := relax_inv g start h current st d hd hinv hgc
    have hcur₁ := relax_current g h current st d hd
    have hgc₁ : (relax g h current st d).gsc.lookup current = some gc := by
      rw [hcur₁]
      exact hgc
    obtain ⟨hinv₂, ⟨tl₂, htl₂⟩, hnew₂, hcur₂, hphi₂⟩ :=
      ih (relax g h current st d)
        (fun d₂ hd₂ => hsub d₂ (List.mem_cons_of_mem _ hd₂)) hinv₁ hgc₁
    obtain ⟨tl₁, htl₁⟩ := relax_heap g h current st d
    refine ⟨hinv₂, ⟨tl₁ ++ tl₂, ?_⟩, ?_, ?_, ?_⟩
    · rw [htl₂, htl₁, List.append_assoc]
    · intro c v' hv
      rcases hnew₂ c v' hv with hv₁ | hmem
      · rcases relax_newGood g h current st d c v' hv₁ with hv₀ | hmem₁
        · exact Or.inl hv₀
        · right
          rw [htl₂]
          exact List.mem_append.mpr (Or.inl hmem₁)
      · exact Or.inr hmem
    · rw [hcur₂, hcur₁]
    · exact le_trans hphi₂ (relax_phi g start h current st d hinv hgc)

theorem foldRelax_neighbor (g : Grid) (h : Cell → ℚ) (current : Cell) {gc : Nat} :
    ∀ (l : List Cell) (st : AState), (∀ d ∈ l, d ∈ moves) →
      st.gsc.lookup current = some gc →
      ∀ d ∈ l, FreeCell g (current.1 + d.1, current.2 + d.2) →
        ∃ v, v ≤ gc + 1 ∧
          (l.foldl (relax g h current) st).gsc.lookup
            (current.1 + d.1, current.2 + d.2) = some v := by
  intro l
  induction l with
  | nil =>
    intro st _ _ d hd
    exact absurd hd (List.not_mem_nil d)
  | cons d₀ l ih =>
    intro st hsub hgc d hd hfree
    have hd₀ : d₀ ∈ moves := hsub d₀ (List.mem_cons_self _ _)
    have hgc₁ : (relax g h current st d₀).gsc.lookup current = some gc := by
      rw [relax_current g h current st d₀ hd₀]
      exact hgc
    rcases List.mem_cons.mp hd with rfl | hd'
    · obtain ⟨v, hle, hv⟩ := relax_neighbor g h current st d hgc hfree
      obtain ⟨v₂, hv₂, hle₂⟩ :=
        foldRelax_mono g h current l (relax g h current st d) _ v hv
      exact ⟨v₂, le_trans hle₂ hle, hv₂⟩
    · exact ih (relax g h current st d₀)
        (fun d₂ hd₂ => hsub d₂ (List.mem_cons_of_mem _ hd₂)) hgc₁ d hd' hfree

theorem ainv_init (g : Grid) (start : Cell) (h : Cell → ℚ)
    (hstart : FreeCell g start) :
    AInv g start h
      { heap := [((0 : ℚ), start)], gsc := [(start, 0)], cameFrom := [] } := by
  constructor
  · simp
  · intro pr hpr
    simp only [List.mem_singleton] at hpr
    rw [hpr]
    exact hstart
  · intro pr hpr
    simp only [List.mem_singleton] at hpr
    rw [hpr]
    simp
  · intro en hen
    simp only [List.mem_singleton] at hen
    refine ⟨0, ?_, Or.inr ⟨by rw [hen], rfl⟩⟩
    rw [hen]
    simp [List.lookup_cons]
  · simp [List.lookup_cons]
  · rfl
  · intro c p hcp
    exact Option.noConfusion hcp
  · intro c v hcv
    by_cases hcs : c = start
    · exact Or.inl hcs
    · simp only [List.lookup_cons, beq_eq_false_iff_ne.mpr hcs,
        List.lookup_nil] at hcv
      exact Option.noConfusion hcv

theorem acrossing_init (g : Grid) (start goal : Cell) (h : Cell → ℚ)
    (hnn : ∀ c, 0 ≤ h c) {P : List Cell} (hP : GridPath g start goal P) :
    ACrossing h P
      { heap := [((0 : ℚ), start)], gsc := [(start, 0)], cameFrom := [] } := by
  have hne := gridPath_ne_nil hP
  have hlen : 0 < P.length := List.length_pos.mpr hne
  have h0 : wcell P 0 = start := gridPath_wcell_zero hP
  have hle : Nat.findGreatest (fun j => wcell P j = start) (P.length - 1) ≤
      P.length - 1 := Nat.findGreatest_le _
  have hQi : wcell P (Nat.findGreatest (fun j => wcell P j = start)
      (P.length - 1)) = start :=
    @Nat.findGreatest_spec 0 (fun j => wcell P j = start) inferInstance
      (P.length - 1) (Nat.zero_le _) h0
  refine ⟨Nat.findGreatest (fun j => wcell P j = start) (P.length - 1),
    by omega, ?_, ?_, ?_⟩
  · refine ⟨0, ?_, Nat.zero_le _⟩
    rw [hQi]
    simp [List.lookup_cons]
  · refine ⟨0, ?_, ?_⟩
    · rw [hQi]
      exact List.mem_singleton_self _
    · have h1 := hnn (wcell P (Nat.findGreatest (fun j => wcell P j = start)
        (P.length - 1)))
      have h2 : (0 : ℚ) ≤ ((Nat.findGreatest (fun j => wcell P j = start)
        (P.length - 1) : ℕ) : ℚ) := by positivity
      linarith
  · intro j v hij hjlen hlook
    exfalso
    have hQj : wcell P j = start := by
      by_contra hcon
      simp only [List.lookup_cons, beq_eq_false_iff_ne.mpr hcon,
        List.lookup_nil] at hlook
      exact Option.noConfusion hlook
    exact Nat.findGreatest_is_greatest hij (by omega) hQj

theorem ainv_pop (g : Grid) (start : Cell) (h : Cell → ℚ) {st : AState}
    (hinv : AInv g start h st) {rest : List (ℚ × Cell)}
    (hsub : ∀ en ∈ rest, en ∈ st.heap) :
    AInv g start h { heap := rest, gsc := st.gsc, cameFrom := st.cameFrom } := by
  constructor
  · exact hinv.keys_nodup
  · exact hinv.keys_free
  · exact hinv.count_bound
  · intro en hen
    exact hinv.heap_dom en (hsub en hen)
  · exact hinv.g_start
  · exact hinv.cf_start
  · exact hinv.cf_spec
  · exact hinv.gdom_cf

theorem optLe_iff {o : Option Nat} {j : Nat} :
    o.getD (j + 1) ≤ j ↔ ∃ v, o = some v ∧ v ≤ j := by
  cases o with
  | none =>
    simp only [Option.getD_none]
    constructor
    · intro hle
      exact absurd hle (by omega)
    · rintro ⟨v, hv, -⟩
      exact Option.noConfusion hv
  | some v =>
    simp only [Option.getD_some]
    constructor
    · intro hle
      exact ⟨v, rfl, hle⟩
    · rintro ⟨v₂, hv₂, hle⟩
      rw [Option.some.inj hv₂]
      exact hle

theorem reconstruct_spec (g : Grid) (start : Cell) (h : Cell → ℚ) {st : AState}
    (hinv : AInv g start h st) :
    ∀ (vc : Nat) (c : Cell) (fuel : Nat), st.gsc.lookup c = some vc → vc ≤ fuel →
      GridPath g start c (reconstruct st.cameFrom fuel c) ∧
      (reconstruct st.cameFrom fuel c).length ≤ vc + 1 := by
  intro vc
  induction vc using Nat.strong_induction_on with
  | _ vc ih =>
    intro c fuel hc hfuel
    have hcfree : FreeCell g c := hinv.keys_free (c, vc) (lookup_mem hc)
    rcases hinv.gdom_cf c vc hc with rfl | hsome
    · have hrec : reconstruct st.cameFrom fuel c = [c] := by
        cases fuel with
        | zero => rfl
        | succ f => rw [reconstruct, hinv.cf_start]
      rw [hrec]
      refine ⟨⟨rfl, rfl, List.chain'_singleton _, ?_⟩, by simp⟩
      intro x hx
      rw [List.mem_singleton.mp hx]
      exact hcfree
    · obtain ⟨p, hp⟩ := Option.isSome_iff_exists.mp hsome
      obtain ⟨vc', vp, hvc', hvp, hle, hstep⟩ := hinv.cf_spec c p hp
      have hvceq : vc' = vc := by
        rw [hvc'] at hc
        exact Option.some.inj hc
      subst hvceq
      cases fuel with
      | zero => exact absurd hfuel (by omega)
      | succ f =>
        have hrec : reconstruct st.cameFrom (f + 1) c =
            reconstruct st.cameFrom f p ++ [c] := by
          rw [reconstruct, hp]
        obtain ⟨hgp, hlen⟩ := ih vp (by omega) p f hvp (by omega)
        rw [hrec]
        refine ⟨gridPath_append hgp hstep hcfree, ?_⟩
        rw [List.length_append, List.length_singleton]
        omega

theorem astarLoop_succ (g : Grid) (goal : Cell) (h : Cell → ℚ)
    (sel : List (ℚ × Cell) → (ℚ × Cell) × List (ℚ × Cell)) (fuel : Nat)
    (st : AState) (hne : st.heap ≠ []) :
    astarLoop g goal h sel (fuel + 1) st =
      if (sel st.heap).1.2 = goal then
        reconstruct st.cameFrom st.gsc.length (sel st.heap).1.2
      else
        astarLoop g goal h sel fuel
          (moves.foldl (relax g h (sel st.heap).1.2)
            { heap := (sel st.heap).2, gsc := st.gsc,
              cameFrom := st.cameFrom }) := by
  rcases hheap : st.heap with - | ⟨e0, rest⟩
  · exact absurd hheap hne
  · rw [astarLoop, hheap]

theorem astarLoop_master (g : Grid) (start goal : Cell) (h : Cell → ℚ)
    (sel : List (ℚ × Cell) → (ℚ × Cell) × List (ℚ × Cell))
    (hadm : ∀ c q, GridPath g c goal q → h c ≤ (q.length : ℚ) - 1)
    (hg0 : h goal = 0) (hsel : SelSpec sel)
    {P : List Cell} (hP : GridPath g start goal P) :
    ∀ (fuel : Nat) (st : AState), AInv g start h st → ACrossing h P st →
      aPhi g st < fuel →
      GridPath g start goal (astarLoop g goal h sel fuel st) ∧
      (astarLoop g goal h sel fuel st).length ≤ P.length := by
  intro fuel
  induction fuel with
  | zero =>
    intro st _ _ hphi
    exact absurd hphi (by omega)
  | succ fuel ih =>
    intro st hinv hcross hphi
    obtain ⟨i, hi1, ⟨vi, hvi, hvile⟩, ⟨fi, hfimem, hfile⟩, hmax⟩ := hcross
    have hne : st.heap ≠ [] := by
      intro hnil
      rw [hnil] at hfimem
      exact List.not_mem_nil _ hfimem
    obtain ⟨hselmem, hselperm, hselmin⟩ := hsel st.heap hne
    have hPpos : 0 < P.length := List.length_pos.mpr (gridPath_ne_nil hP)
    rw [astarLoop_succ g goal h sel fuel st hne]
    by_cases hgoal : (sel st.heap).1.2 = goal
    · rw [if_pos hgoal]
      obtain ⟨vg, hvg, hvgor⟩ := hinv.heap_dom (sel st.heap).1 hselmem
      rw [hgoal] at hvg
      have hvgle : vg ≤ st.gsc.length :=
        Nat.le_of_succ_le (hinv.count_bound (goal, vg) (lookup_mem hvg))
      obtain ⟨hgp, hlen⟩ := reconstruct_spec g start h hinv vg goal
        st.gsc.length hvg hvgle
      rw [hgoal]
      refine ⟨hgp, le_trans hlen ?_⟩
      have hilt : i < P.length := by omega
      have hdrop := gridPath_drop hP hilt
      have h3 : h (wcell P i) ≤ ((P.drop i).length : ℚ) - 1 :=
        hadm (wcell P i) (P.drop i) hdrop
      have hdlen : ((P.drop i).length : ℚ) = (P.length : ℚ) - (i : ℚ) := by
        rw [List.length_drop, Nat.cast_sub (le_of_lt hilt)]
      have h1 : (sel st.heap).1.1 ≤ fi := hselmin (fi, wcell P i) hfimem
      have h4 : (vg : ℚ) ≤ (P.length : ℚ) - 1 := by
        rcases hvgor with hvgle2 | ⟨hf0, hvg0⟩
        · rw [hgoal, hg0, add_zero] at hvgle2
          have h5 : (sel st.heap).1.1 ≤ (i : ℚ) +
              (((P.drop i).length : ℚ) - 1) := by
            calc (sel st.heap).1.1 ≤ fi := h1
              _ ≤ (i : ℚ) + h (wcell P i) := hfile
              _ ≤ (i : ℚ) + (((P.drop i).length : ℚ) - 1) := by linarith
          rw [hdlen] at h5
          linarith
        · rw [hvg0]
          have h6 : (1 : ℚ) ≤ (P.length : ℚ) := by exact_mod_cast hPpos
          push_cast
          linarith
      have h7 : ((vg + 1 : ℕ) : ℚ) ≤ (P.length : ℚ) := by push_cast; linarith
      exact_mod_cast h7
    · rw [if_neg hgoal]
      obtain ⟨gc, hgc, -⟩ := hinv.heap_dom (sel st.heap).1 hselmem
      set st₀ : AState := ({ heap := (sel st.heap).2, gsc := st.gsc, cameFrom := st.cameFrom } : AState) with hst₀
      set st' : AState := moves.foldl (relax g h (sel st.heap).1.2) st₀ with hst'
      have hsub : ∀ en ∈ (sel st.heap).2, en ∈ st.heap := by
        intro en hen
        exact hselperm.mem_iff.mpr (List.mem_cons_of_mem _ hen)
      have hinv₀ : AInv g start h st₀ := ainv_pop g start h hinv hsub
      have hgc₀ : st₀.gsc.lookup (sel st.heap).1.2 = some gc := hgc
      obtain ⟨hinv', ⟨tl, htl⟩, hnew', hcur', hphi'⟩ :=
        foldRelax_facts g start h (sel st.heap).1.2 moves st₀
          (fun d hd => hd) hinv₀ hgc₀
      have hlen_heap : st.heap.length = (sel st.heap).2.length + 1 := by
        rw [hselperm.length_eq]
        rfl
      have hphi₀ : aPhi g st₀ + 1 = aPhi g st := by
        show (sel st.heap).2.length + 2 * potSum g st.gsc + 1 =
          st.heap.length + 2 * potSum g st.gsc
        omega
      have hseed : ∃ j₀, i ≤ j₀ ∧ j₀ + 1 ≤ P.length ∧
          (st'.gsc.lookup (wcell P j₀)).getD (j₀ + 1) ≤ j₀ ∧
          (j₀ = i → (fi, wcell P i) ∈ st'.heap) := by
        rcases List.mem_cons.mp (hselperm.mem_iff.mp hfimem) with hb | hbrest
        · have hcurw : (sel st.heap).1.2 = wcell P i := (congrArg Prod.snd hb).symm
          have hilt2 : i + 1 < P.length := by
            rcases Nat.lt_or_ge (i + 1) P.length with hlt | hge
            · exact hlt
            · exfalso
              apply hgoal
              have hieq : i = P.length - 1 := by omega
              rw [hcurw, hieq, gridPath_wcell_last hP]
          obtain ⟨d, hd, hdeq⟩ := gridPath_step hP hilt2
          have hgcvi : gc = vi := by
            have hgc' := hgc
            rw [hcurw] at hgc'
            rw [hgc'] at hvi
            exact Option.some.inj hvi
          have hcell : ((sel st.heap).1.2.1 + d.1, (sel st.heap).1.2.2 + d.2) =
              wcell P (i + 1) := by
            rw [hcurw]
            exact hdeq.symm
          have hfree2 : FreeCell g ((sel st.heap).1.2.1 + d.1,
              (sel st.heap).1.2.2 + d.2) := by
            rw [hcell]
            exact gridPath_free hP hilt2
          obtain ⟨w, hwle, hw⟩ := foldRelax_neighbor g h (sel st.heap).1.2 moves
            st₀ (fun d₂ hd₂ => hd₂) hgc₀ d hd hfree2
          have hw' : st'.gsc.lookup (wcell P (i + 1)) = some w := by
            rw [← hcell]
            exact hw
          refine ⟨i + 1, by omega, by omega, ?_, fun hcon => absurd hcon (by omega)⟩
          rw [hw']
          simp only [Option.getD_some]
          omega
        · obtain ⟨v', hv', hvle'⟩ := foldRelax_mono g h (sel st.heap).1.2 moves
            st₀ (wcell P i) vi hvi
          have hv'' : st'.gsc.lookup (wcell P i) = some v' := hv'
          have htl' : st'.heap = st₀.heap ++ tl := htl
          refine ⟨i, le_refl i, hi1, ?_, ?_⟩
          · rw [hv'']
            simp only [Option.getD_some]
            omega
          · intro _
            rw [htl']
            exact List.mem_append.mpr (Or.inl hbrest)
      obtain ⟨j₀, hij₀, hj₀len, hRj₀, hfall⟩ := hseed
      set i₂ := Nat.findGreatest
        (fun j => (st'.gsc.lookup (wcell P j)).getD (j + 1) ≤ j) (P.length - 1)
        with hi₂
      have hi₂le : i₂ ≤ P.length - 1 := Nat.findGreatest_le _
      have hj₀i₂ : j₀ ≤ i₂ :=
        Nat.le_findGreatest (by omega) hRj₀
      have hRi₂ : (st'.gsc.lookup (wcell P i₂)).getD (i₂ + 1) ≤ i₂ :=
        @Nat.findGreatest_spec j₀
          (fun j => (st'.gsc.lookup (wcell P j)).getD (j + 1) ≤ j)
          inferInstance (P.length - 1) (by omega) hRj₀
      obtain ⟨v₂, hv₂, hv₂le⟩ := optLe_iff.mp hRi₂
      have hheap₂ : ∃ f₂, (f₂, wcell P i₂) ∈ st'.heap ∧
          f₂ ≤ (i₂ : ℚ) + h (wcell P i₂) := by
        rcases hnew' (wcell P i₂) v₂ hv₂ with hold | hmem
        · rcases Nat.lt_or_ge i i₂ with hlt | hge
          · exact absurd hv₂le (hmax i₂ v₂ hlt (by omega) hold)
          · have hie : i₂ = i := by omega
            refine ⟨fi, ?_, ?_⟩
            · rw [hie]
              exact hfall (by omega)
            · rw [hie]
              exact hfile
        · refine ⟨(v₂ : ℚ) + h (wcell P i₂), hmem, ?_⟩
          have hc2 : (v₂ : ℚ) ≤ (i₂ : ℚ) := by exact_mod_cast hv₂le
          linarith
      have hmax₂ : ∀ j v, i₂ < j → j + 1 ≤ P.length →
          st'.gsc.lookup (wcell P j) = some v → ¬ v ≤ j := by
        intro j v hj hjlen hlook hvle2
        have hRj : (st'.gsc.lookup (wcell P j)).getD (j + 1) ≤ j :=
          optLe_iff.mpr ⟨v, hlook, hvle2⟩
        exact @Nat.findGreatest_is_greatest j
          (fun j => (st'.gsc.lookup (wcell P j)).getD (j + 1) ≤ j)
          inferInstance (P.length - 1) hj (by omega) hRj
      have hcross' : ACrossing h P st' :=
        ⟨i₂, by omega, ⟨v₂, hv₂, hv₂le⟩, hheap₂, hmax₂⟩
      have hinv'2 : AInv g start h st' := hinv'
      have hphi'2 : aPhi g st' ≤ aPhi g st₀ := hphi'
      have hphilt : aPhi g st' < fuel := by omega
      exact ih st' hinv'2 hcross' hphilt

theorem aPhi_init_lt (g : Grid) (start : Cell) :
    aPhi g { heap := [((0 : ℚ), start)], gsc := [(start, 0)], cameFrom := [] } <
      astarFuel g := by
  have hb : potSum g [(start, 0)] ≤ g.H * g.W * (g.H * g.W) := by
    rw [potSum]
    calc (gridCells g).sum (potOf g [(start, 0)])
        ≤ (gridCells g).sum fun _ => g.H * g.W := by
          refine Finset.sum_le_sum ?_
          intro c hc
          rcases hl : List.lookup c [(start, 0)] with - | v
          · have he : potOf g [(start, 0)] c = g.H * g.W := by rw [potOf, hl]
            rw [he]
          · have he : potOf g [(start, 0)] c = v := by rw [potOf, hl]
            have hm := lookup_mem hl
            simp only [List.mem_singleton, Prod.mk.injEq] at hm
            rw [he, hm.2]
            exact Nat.zero_le _
      _ = (gridCells g).card * (g.H * g.W) := by
          rw [Finset.sum_const, smul_eq_mul]
      _ ≤ g.H * g.W * (g.H * g.W) :=
          Nat.mul_le_mul_right _ (card_gridCells g)
  have h2 : 2 * potSum g [(start, 0)] ≤ 2 * (g.H * g.W * (g.H * g.W)) :=
    Nat.mul_le_mul_left 2 hb
  have h3 : 2 * (g.H * g.W) * (g.H * g.W) = 2 * (g.H * g.W * (g.H * g.W)) :=
    Nat.mul_assoc 2 (g.H * g.W) (g.H * g.W)
  show 1 + 2 * potSum g [(start, 0)] < 2 * (g.H * g.W) * (g.H * g.W) + 2
  linarith

/-- C6: on any occupancy grid, for any heuristic that is nonnegative,
vanishes at the goal and is admissible (bounded by the true remaining
path-cell count minus one, as the Euclidean heuristic of the source is for
4-connected unit moves), and for any pop rule that always removes a
minimal-priority heap entry (so for any tie-breaking policy, the heapq
lexicographic one included), whenever the goal is reachable from the start
through free cells `astar` returns a free-cell 4-connected path from start
to goal whose cell count is minimal among all such paths. -/
theorem C6_astar_returns_minimum_length_path (g : Grid) (start goal : Cell)
    (h : Cell → ℚ) (sel : List (ℚ × Cell) → (ℚ × Cell) × List (ℚ × Cell))
    (hadm : ∀ c q, GridPath g c goal q → h c ≤ (q.length : ℚ) - 1)
    (hg0 : h goal = 0) (hnn : ∀ c, 0 ≤ h c) (hsel : SelSpec sel)
    (hreach : ∃ p, GridPath g start goal p) :
    GridPath g start goal (astar g start goal h sel) ∧
    ∀ q, GridPath g start goal q →
      (astar g start goal h sel).length ≤ q.length := by
  obtain ⟨p₀, hp₀⟩ := hreach
  have hstart : FreeCell g start := by
    have hfr := gridPath_free hp₀ (List.length_pos.mpr (gridPath_ne_nil hp₀))
    rwa [gridPath_wcell_zero hp₀] at hfr
  rw [astar]
  constructor
  · exact (astarLoop_master g start goal h sel hadm hg0 hsel hp₀ (astarFuel g) _
      (ainv_init g start h hstart) (acrossing_init g start goal h hnn hp₀)
      (aPhi_init_lt g start)).1
  · intro q hq
    exact (astarLoop_master g start goal h sel hadm hg0 hsel hq (astarFuel g) _
      (ainv_init g start h hstart) (acrossing_init g start goal h hnn hq)
      (aPhi_init_lt g start)).2

/-- Witness for C6 at scenario C: on the 5×5 all-free grid from (0,0) to
(4,4), with the (admissible) zero heuristic and the lexicographic pop of
`heapq`, the returned path is a valid free-cell path and has exactly 9
cells. -/
theorem C6_astar_returns_minimum_length_path_witness :
    GridPath grid5 (0, 0) (4, 4)
      (astar grid5 (0, 0) (4, 4) (fun _ => 0) popMin) ∧
    (astar grid5 (0, 0) (4, 4) (fun _ => 0) popMin).length = 9 := by
  have hmain := C6_astar_returns_minimum_length_path grid5 (0, 0) (4, 4)
    (fun _ => 0) popMin
    (by
      intro c q hq
      have h1 : 1 ≤ q.length := List.length_pos.mpr (gridPath_ne_nil hq)
      have h2 : (1 : ℚ) ≤ (q.length : ℚ) := by exact_mod_cast h1
      show (0 : ℚ) ≤ (q.length : ℚ) - 1
      linarith)
    rfl (fun c => le_refl 0) popMin_spec ⟨path9, by decide⟩
  obtain ⟨hgp, hmin⟩ := hmain
  refine ⟨hgp, le_antisymm ?_ ?_⟩
  · have hup := hmin path9 (by decide)
    have h9 : path9.length = 9 := rfl
    rw [h9] at hup
    exact hup
  · have hlb := gridPath_manhattan _ _ _ hgp
    norm_num at hlb
    exact hlb

end SafePath
